import Mathlib

/-!
Verification of git2midi.

A shallow embedding of the MIDI encoding core of `klejdi94/git2midi`
(packages `midi`, `music`, `config`, `git`) and theorems about it.

Conventions of the embedding.

* A Go `byte`, `uint16` or `uint32` is a `Nat`; a Go `int` is an `Int` where it is an
  input (configuration fields, the index of `calculateRhythm`, a count) and a `Nat`
  where it is a length or the index of a `range` loop. Every place where the Go code
  truncates (`byte(x)`, `uint16(x)`, `uint32(x)`, a shift or a product of `uint32`
  values) carries an explicit `% 2 ^ w`.
* A Go `[]byte` and a Go `string` are a `List Nat`, the sequence of their bytes.
* A Go function that can stop with a run-time panic returns an `Outcome`; the two
  panics that occur in this code are an index outside an array and an integer
  division by zero.
* The `for value > 0` loop of `EncodeVarLen` is bounded by explicit fuel; running
  out of fuel is an outcome of its own, so that it cannot be mistaken for a result.
* A Go result `(value, error)` is a pair of options, `none` standing for `nil`.
* The file written by `WriteFile` belongs to the operating system: whether it can be
  created and whether each write completes are parameters.
* The definitions of package `midi` are in the namespace of the file, those of the
  packages `music`, `config` and `git` in namespaces of these names.
-/

namespace Git2Midi

/-- Result of running a Go function that may panic. -/
inductive Outcome (α : Type) where
  | ok : α → Outcome α
  | indexOutOfRange : Outcome α
  | divideByZero : Outcome α
  | fuelExhausted : Outcome α
  deriving DecidableEq, Repr

namespace Outcome

/-- Sequencing of outcomes: a panic of the first computation is the result. -/
def bind {α β : Type} : Outcome α → (α → Outcome β) → Outcome β
  | ok a, f => f a
  | indexOutOfRange, _ => indexOutOfRange
  | divideByZero, _ => divideByZero
  | fuelExhausted, _ => fuelExhausted

/-- Whether the computation returned a value. -/
def isOk {α : Type} : Outcome α → Bool
  | ok _ => true
  | _ => false

end Outcome

/-! ## `midi/varlen.go` -/

/-- The first loop of `EncodeVarLen` (`for value > 0`): stores the 7-bit groups of
`value`, least significant first, in `buffer` from index `pos` on, and returns the
buffer and the final `pos`. Writing at an index outside the buffer panics. -/
def encodeLoop : Nat → Nat → List Nat → Nat → Outcome (List Nat × Nat)
  | 0, _, _, _ => Outcome.fuelExhausted
  | fuel + 1, value, buffer, pos =>
    if value > 0 then
      if pos < buffer.length then
        encodeLoop fuel (value >>> 7) (buffer.set pos (value &&& 0x7F)) (pos + 1)
      else
        Outcome.indexOutOfRange
    else
      Outcome.ok (buffer, pos)

/-- The second loop of `EncodeVarLen` (`for i := pos - 1; i >= 0; i--`). The first
argument is `i + 1`, so the loop stops when it is `0`. -/
def emitLoop : Nat → List Nat → List Nat → Outcome (List Nat)
  | 0, _, result => Outcome.ok result
  | i + 1, buffer, result =>
    if i < buffer.length then
      let buffer1 := if i > 0 then buffer.set i (buffer.getD i 0 ||| 0x80) else buffer
      emitLoop i buffer1 (result ++ [buffer1.getD i 0])
    else
      Outcome.indexOutOfRange

/-- Go `EncodeVarLen` with the given fuel for its first loop. -/
def EncodeVarLenFuel (fuel : Nat) (value : Nat) : Outcome (List Nat) :=
  if value = 0 then
    Outcome.ok [0x00]
  else
    (encodeLoop fuel value [0, 0, 0, 0] 0).bind fun r => emitLoop r.2 r.1 []

/-- Go `EncodeVarLen(value uint32) []byte`. The first loop shifts a 32-bit value right
by 7 bits per round, so 32 rounds of fuel are more than it can use. -/
def EncodeVarLen (value : Nat) : Outcome (List Nat) :=
  EncodeVarLenFuel 32 value

/-- The `for i, b := range data` loop of `DecodeVarLen`, from index `i` on, with the
current `value` (a `uint32`) and `bytesRead`. -/
def decodeLoop : List Nat → Nat → Nat → Nat → Nat × Nat
  | [], _, value, bytesRead => (value, bytesRead)
  | b :: rest, i, value, bytesRead =>
    let bytesRead1 := bytesRead + 1
    let value1 := ((value <<< 7) % 2 ^ 32) ||| (b &&& 0x7F)
    if b &&& 0x80 = 0 then
      (value1, bytesRead1)
    else if i ≥ 3 then
      (value1, bytesRead1)
    else
      decodeLoop rest (i + 1) value1 bytesRead1

/-- Go `DecodeVarLen(data []byte) (uint32, int)`. -/
def DecodeVarLen (data : List Nat) : Nat × Nat :=
  decodeLoop data 0 0 0

/-! ## `midi/events.go` -/

/-- Go `NoteOn(channel, note, velocity byte) []byte`. -/
def NoteOn (channel note velocity : Nat) : List Nat :=
  let channel1 := if channel > 15 then 15 else channel
  let note1 := if note > 127 then 127 else note
  let velocity1 := if velocity > 127 then 127 else velocity
  [0x90 ||| channel1, note1, velocity1]

/-- Go `NoteOff(channel, note, velocity byte) []byte`. -/
def NoteOff (channel note velocity : Nat) : List Nat :=
  let channel1 := if channel > 15 then 15 else channel
  let note1 := if note > 127 then 127 else note
  let velocity1 := if velocity > 127 then 127 else velocity
  [0x80 ||| channel1, note1, velocity1]

/-- Go `SetTempo(tempo uint32) []byte`; `byte(x)` keeps the low 8 bits of `x`. -/
def SetTempo (tempo : Nat) : List Nat :=
  [0xFF, 0x51, 0x03, (tempo >>> 16) % 256, (tempo >>> 8) % 256, tempo % 256]

/-- Go `EndOfTrack() []byte`. -/
def EndOfTrack : List Nat :=
  [0xFF, 0x2F, 0x00]

/-- Go `BPMToMicrosecondsPerQuarter(bpm int) uint32`. The conversion `uint32(bpm)` keeps
the low 32 bits of `bpm`; dividing by zero panics. -/
def BPMToMicrosecondsPerQuarter (bpm : Int) : Outcome Nat :=
  let bpm1 := if bpm ≤ 0 then 120 else bpm
  let divisor := (bpm1 % 2 ^ 32).toNat
  if divisor = 0 then
    Outcome.divideByZero
  else
    Outcome.ok (60000000 / divisor)

/-! ## `midi/track.go` -/

/-- Go `TrackEvent`: a MIDI event with its delta time (a `uint32`). -/
structure TrackEvent where
  DeltaTime : Nat
  Data : List Nat
  deriving DecidableEq, Repr

/-- Go `Track`: a MIDI track with events. -/
structure Track where
  events : List TrackEvent
  deriving DecidableEq, Repr

/-- Go `NewTrack() *Track`. -/
def NewTrack : Track :=
  { events := [] }

/-- Go `(t *Track) AddEvent(deltaTime uint32, data []byte)`. -/
def Track.AddEvent (t : Track) (deltaTime : Nat) (data : List Nat) : Track :=
  { events := t.events ++ [{ DeltaTime := deltaTime, Data := data }] }

/-- Go `(t *Track) AddNoteOn(deltaTime uint32, channel, note, velocity byte)`. -/
def Track.AddNoteOn (t : Track) (deltaTime channel note velocity : Nat) : Track :=
  t.AddEvent deltaTime (NoteOn channel note velocity)

/-- Go `(t *Track) AddNoteOff(deltaTime uint32, channel, note, velocity byte)`. -/
def Track.AddNoteOff (t : Track) (deltaTime channel note velocity : Nat) : Track :=
  t.AddEvent deltaTime (NoteOff channel note velocity)

/-- Go `(t *Track) AddTempo(deltaTime uint32, tempo uint32)`. -/
def Track.AddTempo (t : Track) (deltaTime tempo : Nat) : Track :=
  t.AddEvent deltaTime (SetTempo tempo)

/-- Go `(t *Track) AddEndOfTrack(deltaTime uint32)`. -/
def Track.AddEndOfTrack (t : Track) (deltaTime : Nat) : Track :=
  t.AddEvent deltaTime EndOfTrack

/-- Go `(t *Track) EventCount() int`. -/
def Track.EventCount (t : Track) : Nat :=
  t.events.length

/-- The `for _, event := range t.events` loop of `Track.Encode`, writing to `buf`. -/
def encodeEvents : List TrackEvent → List Nat → Outcome (List Nat)
  | [], buf => Outcome.ok buf
  | event :: rest, buf =>
    (EncodeVarLen event.DeltaTime).bind fun d => encodeEvents rest (buf ++ d ++ event.Data)

/-- Go's `copy(dst[lo:hi], src)`: overwrites `dst` from index `lo` on with the first
`min(hi - lo, len(src))` elements of `src`. -/
def copyInto (dst : List Nat) (lo hi : Nat) (src : List Nat) : List Nat :=
  let n := min (hi - lo) src.length
  dst.take lo ++ src.take n ++ dst.drop (lo + n)

/-- Go `(t *Track) Encode() []byte`. The bytes of `"MTrk"` are `4D 54 72 6B`;
`uint32(len(trackData))` keeps the low 32 bits of the length. -/
def Track.Encode (t : Track) : Outcome (List Nat) :=
  (encodeEvents t.events []).bind fun trackData =>
    let trackLength := trackData.length % 2 ^ 32
    let result0 := List.replicate (8 + trackData.length) 0
    let result1 := copyInto result0 0 4 [0x4D, 0x54, 0x72, 0x6B]
    let result2 := result1.set 4 ((trackLength >>> 24) % 256)
    let result3 := result2.set 5 ((trackLength >>> 16) % 256)
    let result4 := result3.set 6 ((trackLength >>> 8) % 256)
    let result5 := result4.set 7 (trackLength % 256)
    Outcome.ok (copyInto result5 8 result5.length trackData)

/-! ## `midi/writer.go` -/

/-- Go `Writer`: the format and the division are `uint16` values, the tracks are kept
in insertion order. -/
structure Writer where
  format : Nat
  division : Nat
  tracks : List Track
  deriving DecidableEq, Repr

/-- Go `NewWriter(format uint16, division uint16) *Writer`. -/
def NewWriter (format division : Nat) : Writer :=
  { format := format, division := division, tracks := [] }

/-- Go `(w *Writer) AddTrack(track *Track)`. -/
def Writer.AddTrack (w : Writer) (track : Track) : Writer :=
  { w with tracks := w.tracks ++ [track] }

/-- Go `(w *Writer) encodeHeader() []byte`. The bytes of `"MThd"` are `4D 54 68 64`;
`uint16(len(w.tracks))` keeps the low 16 bits of the number of tracks. -/
def Writer.encodeHeader (w : Writer) : List Nat :=
  let header0 := List.replicate 14 0
  let header1 := copyInto header0 0 4 [0x4D, 0x54, 0x68, 0x64]
  let header2 := header1.set 4 0x00
  let header3 := header2.set 5 0x00
  let header4 := header3.set 6 0x00
  let header5 := header4.set 7 0x06
  let header6 := header5.set 8 ((w.format >>> 8) % 256)
  let header7 := header6.set 9 (w.format % 256)
  let numTracks := w.tracks.length % 2 ^ 16
  let header8 := header7.set 10 ((numTracks >>> 8) % 256)
  let header9 := header8.set 11 (numTracks % 256)
  let header10 := header9.set 12 ((w.division >>> 8) % 256)
  header10.set 13 (w.division % 256)

/-- Go `(w *Writer) GetDivision() uint16`. -/
def Writer.GetDivision (w : Writer) : Nat :=
  w.division

/-- Go `(w *Writer) TrackCount() int`. -/
def Writer.TrackCount (w : Writer) : Nat :=
  w.tracks.length

/-- What `WriteFile` returns: `nil` after the bytes given were written to the file,
or the error of the step that failed. -/
inductive WriteResult where
  | written : List Nat → WriteResult
  | failedToCreateFile : WriteResult
  | failedToWriteHeader : WriteResult
  | failedToWriteTrack : WriteResult
  deriving DecidableEq, Repr

/-- The `for _, track := range w.tracks` loop of `WriteFile`. The file belongs to the
operating system: `writeOk k` says whether call number `k` of `file.Write` (counted
from 0) writes all its bytes; `sink` is what the file has received so far. -/
def writeTracks (writeOk : Nat → Bool) : List Track → Nat → List Nat → Outcome WriteResult
  | [], _, sink => Outcome.ok (WriteResult.written sink)
  | track :: rest, k, sink =>
    track.Encode.bind fun trackData =>
      if writeOk k then
        writeTracks writeOk rest (k + 1) (sink ++ trackData)
      else
        Outcome.ok WriteResult.failedToWriteTrack

/-- Go `(w *Writer) WriteFile(filename string) error`; `createOk` says whether
`os.Create` succeeds, `writeOk` is as in `writeTracks`. -/
def Writer.WriteFile (w : Writer) (createOk : Bool) (writeOk : Nat → Bool) :
    Outcome WriteResult :=
  if createOk then
    let header := w.encodeHeader
    if writeOk 0 then
      writeTracks writeOk w.tracks 1 header
    else
      Outcome.ok WriteResult.failedToWriteHeader
  else
    Outcome.ok WriteResult.failedToCreateFile

/-! ## `git/commits.go` -/

namespace git

/-- Go `Commit`. A Go `string` is its sequence of bytes. -/
structure Commit where
  Hash : List Nat
  Timestamp : Int
  Author : List Nat
  Message : List Nat
  deriving DecidableEq, Repr

/-- Go `LimitCommits(commits []Commit, count int) []Commit`; `commits[:count]` is the
prefix of length `count`. -/
def LimitCommits (commits : List Commit) (count : Int) : List Commit :=
  if count ≤ 0 ∨ count ≥ commits.length then
    commits
  else
    commits.take count.toNat

end git

/-! ## `music/errors.go` and `music/generator.go` -/

namespace music

/-- The two error values of `music/errors.go`. -/
inductive GenError where
  | ErrNoCommits : GenError
  | ErrInvalidMode : GenError
  deriving DecidableEq, Repr

/-- Go `Config` of package `music`; `Mode` is an `int` type. -/
structure Config where
  BPM : Int
  Ticks : Int
  Duration : Int
  Mode : Int
  deriving DecidableEq, Repr

/-- Go `ModeSingleTrack Mode = iota`. -/
def ModeSingleTrack : Int := 0

/-- Go `ModePerAuthor`. -/
def ModePerAuthor : Int := 1

/-- Go `Generator`. -/
structure Generator where
  config : Config
  deriving DecidableEq, Repr

/-- Go `NewGenerator(cfg *Config) *Generator`. -/
def NewGenerator (cfg : Config) : Generator :=
  { config := cfg }

/-- The loop of `Write` of the 32-bit FNV-1a hash of Go's `hash/fnv`
(`hash ^= c; hash *= 16777619` on a `uint32`). -/
def fnvWrite : List Nat → Nat → Nat
  | [], hash => hash
  | c :: rest, hash => fnvWrite rest (((hash ^^^ c) * 16777619) % 2 ^ 32)

/-- Go `h := fnv.New32a(); h.Write(data); h.Sum32()`: the hash starts at 2166136261. -/
def fnv32a (data : List Nat) : Nat :=
  fnvWrite data 2166136261

/-- The slice `pentatonic` of `hashToPitch`. -/
def pentatonic : List Nat := [0, 3, 5, 7, 10]

/-- Go `(g *Generator) hashToPitch(hash string) byte`; the receiver is not used. The
index `scaleDegree` is a remainder modulo the length of `pentatonic`, so it is in
range. -/
def hashToPitch (hash : List Nat) : Nat :=
  let hashValue := fnv32a hash
  let scaleDegree := hashValue % pentatonic.length
  let octaveOffset := (hashValue / pentatonic.length) % 3
  let note := 60 + pentatonic.get ⟨scaleDegree, Nat.mod_lt _ (by decide)⟩ + octaveOffset * 12
  let note1 := if note > 84 then 84 else note
  let note2 := if note1 < 60 then 60 else note1
  note2 % 256

/-- Go `(g *Generator) messageToVelocity(message string) byte`; the receiver is not
used. -/
def messageToVelocity (message : List Nat) : Nat :=
  let length := message.length
  let length1 := if length > 200 then 200 else length
  let velocity := 40 + (length1 * (127 - 40)) / 200
  let velocity1 := if velocity > 127 then 127 else velocity
  let velocity2 := if velocity1 < 40 then 40 else velocity1
  velocity2 % 256

/-- Go `(g *Generator) calculateRhythm(index int, baseDuration uint32) uint32`; the
receiver is not used. Go's `%` on `int` truncates towards zero; the products are
`uint32` products. -/
def calculateRhythm (index : Int) (baseDuration : Nat) : Nat :=
  if index = 0 then
    baseDuration
  else if index.tmod 4 = 0 then
    ((baseDuration * 3) % 2 ^ 32) / 4
  else if index.tmod 8 = 0 then
    ((baseDuration * 5) % 2 ^ 32) / 4
  else
    baseDuration

/-- The `for i, commit := range commits` loop of `generateSingleTrack`, from index `i`
on, with the current `currentTime` (a `uint32`) and track. -/
def singleTrackLoop (g : Generator) : List git.Commit → Nat → Nat → Track → Track
  | [], _, _, track => track
  | commit :: rest, i, currentTime, track =>
    let pitch := hashToPitch commit.Hash
    let velocity := messageToVelocity commit.Message
    let deltaTime := calculateRhythm (i : Int) (g.config.Duration % 2 ^ 32).toNat
    let track1 := track.AddNoteOn currentTime 0 pitch velocity
    let track2 := track1.AddNoteOff deltaTime 0 pitch 64
    singleTrackLoop g rest (i + 1) (((deltaTime * 3) % 2 ^ 32) / 4) track2

/-- Go `(g *Generator) generateSingleTrack(writer, commits, tempo) error`: the writer
after the call and the error returned (always `nil`). -/
def generateSingleTrack (g : Generator) (writer : Writer) (commits : List git.Commit)
    (tempo : Nat) : Writer × Option GenError :=
  let track := NewTrack
  let track1 := track.AddTempo 0 tempo
  let track2 := singleTrackLoop g commits 0 0 track1
  let track3 := track2.AddEndOfTrack 0
  (writer.AddTrack track3, none)

/-- Go `authorCommits[commit.Author] = append(authorCommits[commit.Author], commit)` on
a map kept as a list of entries with distinct keys. -/
def appendToAuthor : List (List Nat × List git.Commit) → git.Commit →
    List (List Nat × List git.Commit)
  | [], commit => [(commit.Author, [commit])]
  | (author, cs) :: rest, commit =>
    if author = commit.Author then (author, cs ++ [commit]) :: rest
    else (author, cs) :: appendToAuthor rest commit

/-- The first loop of `generatePerAuthorTracks`: the map `authorCommits`. -/
def groupByAuthor (commits : List git.Commit) : List (List Nat × List git.Commit) :=
  commits.foldl appendToAuthor []

/-- The keys of the map after `sort.Strings(authors)`: ascending in the bytewise
lexicographic order of Go strings. -/
def sortedAuthors (authorCommits : List (List Nat × List git.Commit)) : List (List Nat) :=
  (authorCommits.map Prod.fst).insertionSort (fun a b => a ≤ b)

/-- The `for i, commit := range authorCommits[author]` loop of
`generatePerAuthorTracks`; `byte(channel)` keeps the low 8 bits of `channel`. -/
def authorTrackLoop (g : Generator) (channel : Nat) :
    List git.Commit → Nat → Nat → Track → Track
  | [], _, _, track => track
  | commit :: rest, i, currentTime, track =>
    let pitch := hashToPitch commit.Hash
    let velocity := messageToVelocity commit.Message
    let deltaTime := calculateRhythm (i : Int) (g.config.Duration % 2 ^ 32).toNat
    let track1 := track.AddNoteOn currentTime (channel % 256) pitch velocity
    let track2 := track1.AddNoteOff deltaTime (channel % 256) pitch 64
    authorTrackLoop g channel rest (i + 1) (((deltaTime * 3) % 2 ^ 32) / 4) track2

/-- The `for channel, author := range authors` loop of `generatePerAuthorTracks`, from
index `channel` on. -/
def authorsLoop (g : Generator) (tempo : Nat)
    (authorCommits : List (List Nat × List git.Commit)) :
    List (List Nat) → Nat → Writer → Writer
  | [], _, writer => writer
  | author :: rest, channel, writer =>
    let channel1 := if channel > 15 then 15 else channel
    let track := NewTrack
    let track1 := track.AddTempo 0 tempo
    let track2 :=
      authorTrackLoop g channel1 ((authorCommits.lookup author).getD []) 0 0 track1
    let track3 := track2.AddEndOfTrack 0
    authorsLoop g tempo authorCommits rest (channel + 1) (writer.AddTrack track3)

/-- Go `(g *Generator) generatePerAuthorTracks(writer, commits, tempo) error`: the
writer after the call and the error returned (always `nil`). -/
def generatePerAuthorTracks (g : Generator) (writer : Writer) (commits : List git.Commit)
    (tempo : Nat) : Writer × Option GenError :=
  let authorCommits := groupByAuthor commits
  let authors := sortedAuthors authorCommits
  (authorsLoop g tempo authorCommits authors 0 writer, none)

/-- Go `(g *Generator) Generate(commits []git.Commit) (*midi.Writer, error)`: the pair
returned, `none` standing for `nil`; `uint16(g.config.Ticks)` keeps the low 16 bits. -/
def Generate (g : Generator) (commits : List git.Commit) :
    Outcome (Option Writer × Option GenError) :=
  if commits.length = 0 then
    Outcome.ok (none, some GenError.ErrNoCommits)
  else
    let format := if g.config.Mode = ModePerAuthor then 1 else 0
    let writer := NewWriter format (g.config.Ticks % 2 ^ 16).toNat
    (BPMToMicrosecondsPerQuarter g.config.BPM).bind fun tempo =>
      if g.config.Mode = ModeSingleTrack then
        match generateSingleTrack g writer commits tempo with
        | (_, some err) => Outcome.ok (none, some err)
        | (writer1, none) => Outcome.ok (some writer1, none)
      else if g.config.Mode = ModePerAuthor then
        match generatePerAuthorTracks g writer commits tempo with
        | (_, some err) => Outcome.ok (none, some err)
        | (writer1, none) => Outcome.ok (some writer1, none)
      else
        Outcome.ok (none, some GenError.ErrInvalidMode)

end music

/-! ## `config/config.go` -/

namespace config

/-- Go `Config` of package `config`; `Mode` is an `int` type. -/
structure Config where
  RepoPath : List Nat
  OutputPath : List Nat
  BPM : Int
  Ticks : Int
  Duration : Int
  MaxCommits : Int
  Sample : Bool
  Mode : Int
  deriving DecidableEq, Repr

/-- Go `ModeSingleTrack Mode = iota`. -/
def ModeSingleTrack : Int := 0

/-- Go `ModePerAuthor`. -/
def ModePerAuthor : Int := 1

/-- Go `DefaultBPM`. -/
def DefaultBPM : Int := 140

/-- Go `DefaultTicks`. -/
def DefaultTicks : Int := 480

/-- Go `DefaultDuration`. -/
def DefaultDuration : Int := 120

/-- Go `DefaultOutputPath = "commits.mid"`, as bytes. -/
def DefaultOutputPath : List Nat := [99, 111, 109, 109, 105, 116, 115, 46, 109, 105, 100]

/-- Go `DefaultRepoPath = "."`, as bytes. -/
def DefaultRepoPath : List Nat := [46]

/-- Go `MinBPM`. -/
def MinBPM : Int := 20

/-- Go `MaxBPM`. -/
def MaxBPM : Int := 300

/-- Go `MinTicks`. -/
def MinTicks : Int := 96

/-- Go `MaxTicks`. -/
def MaxTicks : Int := 960

/-- Go `MinDuration`. -/
def MinDuration : Int := 1

/-- Go `MaxDuration`. -/
def MaxDuration : Int := 4800

/-- The errors `Validate` returns, one for each of its `return` statements with an
error, with the value the message reports. -/
inductive ValidateError where
  | emptyRepoPath : ValidateError
  | emptyOutputPath : ValidateError
  | bpmOutOfRange : Int → ValidateError
  | ticksOutOfRange : Int → ValidateError
  | durationOutOfRange : Int → ValidateError
  | negativeMaxCommits : Int → ValidateError
  deriving DecidableEq, Repr

/-- Go `(c *Config) Validate() error`; `none` stands for `nil`. -/
def Config.Validate (c : Config) : Option ValidateError :=
  if c.RepoPath = [] then
    some ValidateError.emptyRepoPath
  else if c.OutputPath = [] then
    some ValidateError.emptyOutputPath
  else if c.BPM < MinBPM ∨ c.BPM > MaxBPM then
    some (ValidateError.bpmOutOfRange c.BPM)
  else if c.Ticks < MinTicks ∨ c.Ticks > MaxTicks then
    some (ValidateError.ticksOutOfRange c.Ticks)
  else if c.Duration < MinDuration ∨ c.Duration > MaxDuration then
    some (ValidateError.durationOutOfRange c.Duration)
  else if c.MaxCommits < 0 then
    some (ValidateError.negativeMaxCommits c.MaxCommits)
  else
    none

/-- Go `NewConfig() *Config`. -/
def NewConfig : Config :=
  { RepoPath := DefaultRepoPath,
    OutputPath := DefaultOutputPath,
    BPM := DefaultBPM,
    Ticks := DefaultTicks,
    Duration := DefaultDuration,
    MaxCommits := 0,
    Sample := false,
    Mode := ModeSingleTrack }

end config

/-! ## `main.go` -/

/-- The value `genCfg` of `run` in `main.go`: the configuration handed to the generator,
`music.Mode(cfg.Mode)` being a conversion between two `int` types. -/
def genCfg (cfg : config.Config) : music.Config :=
  { BPM := cfg.BPM, Ticks := cfg.Ticks, Duration := cfg.Duration, Mode := cfg.Mode }

/-! ## Notions used to state the specification -/

/-- The value of an outcome, or `d` if the computation panicked. -/
def Outcome.getD {α : Type} : Outcome α → α → α
  | Outcome.ok a, _ => a
  | _, d => d

/-- Index of the first byte whose high bit is clear, if there is one. -/
def firstClearIndex : List Nat → Option Nat
  | [] => none
  | b :: rest => if b &&& 0x80 = 0 then some 0 else (firstClearIndex rest).map (· + 1)

/-- The number `min(len(data), cap, p + 1)` with `p` the index of the first byte whose
high bit is clear, the last term being dropped when there is no such byte. -/
def consumedCount (cap : Nat) (data : List Nat) : Nat :=
  match firstClearIndex data with
  | none => min data.length cap
  | some p => min (min data.length cap) (p + 1)

/-- Big-endian concatenation of the low 7 bits of the bytes, on top of `acc`. -/
def concat7 (acc : Nat) (bs : List Nat) : Nat :=
  bs.foldl (fun a b => a * 128 + b % 128) acc

/-- Big-endian value of a sequence of bytes. -/
def bigEndian (bs : List Nat) : Nat :=
  bs.foldl (fun a b => a * 256 + b) 0

/-- The byte at position `j` of a `k`-byte variable-length quantity for `v`: the 7-bit
group `j` counted from the most significant one, with bit `0x80` set on every byte
but the last. -/
def groupByte (v k j : Nat) : Nat :=
  if j < k - 1 then ((v >>> (7 * (k - 1 - j))) &&& 0x7F) ||| 0x80
  else (v >>> (7 * (k - 1 - j))) &&& 0x7F

/-- The payload of a track chunk as the specification words it: for every event in
append order, the variable-length delta time followed by the event's raw bytes. -/
def payloadOf (t : Track) : List Nat :=
  (t.events.map fun e => (EncodeVarLen e.DeltaTime).getD [] ++ e.Data).flatten

/-- Whether the event is a note-on: the high four bits of its status byte are `9`. -/
def isNoteOn (e : TrackEvent) : Bool :=
  (e.Data.headD 0) &&& 0xF0 == 0x90

/-- Whether the event is a note-off: the high four bits of its status byte are `8`. -/
def isNoteOff (e : TrackEvent) : Bool :=
  (e.Data.headD 0) &&& 0xF0 == 0x80

/-- The channel of a note event: the low four bits of its status byte. -/
def channelOf (e : TrackEvent) : Nat :=
  (e.Data.headD 0) &&& 0x0F

/-- Number of note-on events of a track. -/
def noteOnCount (t : Track) : Nat :=
  (t.events.filter isNoteOn).length

/-- The event with channel `ch` in place of channel 0: a 3-byte event whose status
byte is `0x90` or `0x80` gets the status byte `0x90 OR ch` resp. `0x80 OR ch`; every
other event is left as it is. -/
def rechannelEvent (ch : Nat) (e : TrackEvent) : TrackEvent :=
  match e.Data with
  | [status, d1, d2] =>
    if status = 0x90 ∨ status = 0x80 then
      { DeltaTime := e.DeltaTime, Data := [status ||| ch, d1, d2] }
    else e
  | _ => e

/-- The track with channel `ch` in place of channel 0 in all its events. -/
def rechannel (ch : Nat) (t : Track) : Track :=
  { events := t.events.map (rechannelEvent ch) }

/-- The commits of one author, in their original order. -/
def commitsOf (author : List Nat) (commits : List git.Commit) : List git.Commit :=
  commits.filter fun c => c.Author = author

/-- The track one round of the loop of `generatePerAuthorTracks` builds for the commits
`cs` on the channel `channel1`. -/
def authorTrack (g : music.Generator) (tempo channel1 : Nat) (cs : List git.Commit) : Track :=
  (music.authorTrackLoop g channel1 cs 0 0 (NewTrack.AddTempo 0 tempo)).AddEndOfTrack 0

/-- The tracks the loop of `generatePerAuthorTracks` adds for the authors from index
`channel` on. -/
def authorTracks (g : music.Generator) (tempo : Nat)
    (authorCommits : List (List Nat × List git.Commit)) : List (List Nat) → Nat → List Track
  | [], _ => []
  | author :: rest, channel =>
    authorTrack g tempo (if channel > 15 then 15 else channel)
        ((authorCommits.lookup author).getD []) ::
      authorTracks g tempo authorCommits rest (channel + 1)

/-- The commits of the per-author example of the specification: hashes `abc1234`,
`def5678`, `ghi9012`, authors `Bob`, `Alice`, `Bob`, messages `fix`, `add` and the
empty message. -/
def exampleCommits : List git.Commit :=
  [{ Hash := [97, 98, 99, 49, 50, 51, 52], Timestamp := 0, Author := [66, 111, 98],
     Message := [102, 105, 120] },
   { Hash := [100, 101, 102, 53, 54, 55, 56], Timestamp := 1, Author := [65, 108, 105, 99, 101],
     Message := [97, 100, 100] },
   { Hash := [103, 104, 105, 57, 48, 49, 50], Timestamp := 2, Author := [66, 111, 98],
     Message := [] }]

/-! ## Arithmetic of the bit operations -/

theorem and_7F_eq_mod (x : Nat) : x &&& 0x7F = x % 128 :=
  Nat.and_pow_two_sub_one_eq_mod x 7

theorem shiftRight_7_eq_div (x : Nat) : x >>> 7 = x / 128 := by
  simp [Nat.shiftRight_eq_div_pow]

theorem shiftLeft_7_eq_mul (x : Nat) : x <<< 7 = x * 128 := by
  simp [Nat.shiftLeft_eq]

theorem or_0x80_eq_add {b : Nat} (h : b < 128) : b ||| 0x80 = b + 128 := by
  have key : ∀ c < 128, c ||| 0x80 = c + 128 := by decide
  exact key b h

theorem mul_128_or_eq_add (a : Nat) {c : Nat} (h : c < 128) : a * 128 ||| c = a * 128 + c := by
  have := @Nat.mul_add_lt_is_or 7 c h a
  simp only [Nat.reducePow] at this
  rw [Nat.mul_comm a 128]
  exact this.symm

theorem encode_one_byte_fuel (f : Nat) {v : Nat} (h0 : 0 < v) (h : v < 128) :
    EncodeVarLenFuel (f + 5) v = Outcome.ok [v] := by
  have h1 : v ≠ 0 := by omega
  have h2 : v / 128 = 0 := by omega
  have h3 : v % 128 = v := by omega
  simp [EncodeVarLenFuel, encodeLoop, emitLoop, Outcome.bind, and_7F_eq_mod,
    shiftRight_7_eq_div, h0, h1, h2, h3]

theorem encode_one_byte {v : Nat} (h0 : 0 < v) (h : v < 128) :
    EncodeVarLen v = Outcome.ok [v] :=
  encode_one_byte_fuel 27 h0 h

theorem encode_two_bytes_fuel (f : Nat) {v : Nat} (h0 : 128 ≤ v) (h : v < 2 ^ 14) :
    EncodeVarLenFuel (f + 5) v = Outcome.ok [v / 128 + 128, v % 128] := by
  have h1 : v ≠ 0 := by omega
  have h1' : 0 < v := by omega
  have h2 : 0 < v / 128 := by omega
  have h3 : v / 128 / 128 = 0 := by omega
  have h4 : v / 128 % 128 = v / 128 := by omega
  have h5 : v / 128 < 128 := by omega
  simp [EncodeVarLenFuel, encodeLoop, emitLoop, Outcome.bind, and_7F_eq_mod,
    shiftRight_7_eq_div, h1, h1', h2, h3, h4, or_0x80_eq_add h5]

theorem encode_two_bytes {v : Nat} (h0 : 128 ≤ v) (h : v < 2 ^ 14) :
    EncodeVarLen v = Outcome.ok [v / 128 + 128, v % 128] :=
  encode_two_bytes_fuel 27 h0 h


theorem encode_three_bytes_fuel (f : Nat) {v : Nat} (h0 : 2 ^ 14 ≤ v) (h : v < 2 ^ 21) :
    EncodeVarLenFuel (f + 5) v = Outcome.ok [v / 16384 + 128, v / 128 % 128 + 128, v % 128] := by
  have h1 : v ≠ 0 := by omega
  have h1' : 0 < v := by omega
  have h2 : 0 < v / 128 := by omega
  have h3 : 0 < v / 128 / 128 := by omega
  have h4 : v / 128 / 128 / 128 = 0 := by omega
  have h5 : v / 128 / 128 % 128 = v / 16384 := by omega
  have h6 : v / 16384 < 128 := by omega
  have h7 : v / 128 % 128 < 128 := by omega
  simp [EncodeVarLenFuel, encodeLoop, emitLoop, Outcome.bind, and_7F_eq_mod,
    shiftRight_7_eq_div, h1, h1', h2, h3, h4, h5, or_0x80_eq_add h6, or_0x80_eq_add h7]

theorem encode_three_bytes {v : Nat} (h0 : 2 ^ 14 ≤ v) (h : v < 2 ^ 21) :
    EncodeVarLen v = Outcome.ok [v / 16384 + 128, v / 128 % 128 + 128, v % 128] :=
  encode_three_bytes_fuel 27 h0 h

theorem encode_four_bytes_fuel (f : Nat) {v : Nat} (h0 : 2 ^ 21 ≤ v) (h : v < 2 ^ 28) :
    EncodeVarLenFuel (f + 5) v =
      Outcome.ok [v / 2097152 + 128, v / 16384 % 128 + 128, v / 128 % 128 + 128, v % 128] := by
  have h1 : v ≠ 0 := by omega
  have h1' : 0 < v := by omega
  have h2 : 0 < v / 128 := by omega
  have h3 : 0 < v / 128 / 128 := by omega
  have h4 : 0 < v / 128 / 128 / 128 := by omega
  have h4' : v / 128 / 128 / 128 / 128 = 0 := by omega
  have h5 : v / 128 / 128 / 128 % 128 = v / 2097152 := by omega
  have h5' : v / 128 / 128 % 128 = v / 16384 % 128 := by omega
  have h6 : v / 2097152 < 128 := by omega
  have h7 : v / 128 % 128 < 128 := by omega
  have h8 : v / 16384 % 128 < 128 := by omega
  simp [EncodeVarLenFuel, encodeLoop, emitLoop, Outcome.bind, and_7F_eq_mod,
    shiftRight_7_eq_div, h1, h1', h2, h3, h4, h4', h5, h5', or_0x80_eq_add h6,
    or_0x80_eq_add h7, or_0x80_eq_add h8]

theorem encode_four_bytes {v : Nat} (h0 : 2 ^ 21 ≤ v) (h : v < 2 ^ 28) :
    EncodeVarLen v =
      Outcome.ok [v / 2097152 + 128, v / 16384 % 128 + 128, v / 128 % 128 + 128, v % 128] :=
  encode_four_bytes_fuel 27 h0 h

theorem encode_five_groups_fuel (f : Nat) {v : Nat} (h0 : 2 ^ 28 ≤ v) :
    EncodeVarLenFuel (f + 5) v = Outcome.indexOutOfRange := by
  have h1 : v ≠ 0 := by omega
  have h1' : 0 < v := by omega
  have h2 : 0 < v / 128 := by omega
  have h3 : 0 < v / 128 / 128 := by omega
  have h4 : 0 < v / 128 / 128 / 128 := by omega
  have h5 : 0 < v / 128 / 128 / 128 / 128 := by omega
  simp [EncodeVarLenFuel, encodeLoop, Outcome.bind,
    shiftRight_7_eq_div, h1, h1', h2, h3, h4, h5]

theorem encode_five_groups {v : Nat} (h0 : 2 ^ 28 ≤ v) :
    EncodeVarLen v = Outcome.indexOutOfRange :=
  encode_five_groups_fuel 27 h0

/-- The fuel of the first loop is never the limit: with 5 rounds or more the result
is the same, whatever the value. -/
theorem encodeVarLenFuel_stable (f v : Nat) :
    EncodeVarLenFuel (f + 5) v = EncodeVarLen v := by
  by_cases h0 : v = 0
  · subst h0; simp [EncodeVarLen, EncodeVarLenFuel]
  by_cases h1 : v < 128
  · rw [encode_one_byte_fuel f (by omega) h1, encode_one_byte (by omega) h1]
  by_cases h2 : v < 2 ^ 14
  · rw [encode_two_bytes_fuel f (by omega) h2, encode_two_bytes (by omega) h2]
  by_cases h3 : v < 2 ^ 21
  · rw [encode_three_bytes_fuel f (by omega) h3, encode_three_bytes (by omega) h3]
  by_cases h4 : v < 2 ^ 28
  · rw [encode_four_bytes_fuel f (by omega) h4, encode_four_bytes (by omega) h4]
  · rw [encode_five_groups_fuel f (by omega), encode_five_groups (by omega)]

/-- The encoder never stops for lack of fuel. -/
theorem encodeVarLen_ne_fuelExhausted (v : Nat) : EncodeVarLen v ≠ Outcome.fuelExhausted := by
  by_cases h0 : v = 0
  · subst h0; decide
  by_cases h1 : v < 128
  · rw [encode_one_byte (by omega) h1]; exact fun h => Outcome.noConfusion h
  by_cases h2 : v < 2 ^ 14
  · rw [encode_two_bytes (by omega) h2]; exact fun h => Outcome.noConfusion h
  by_cases h3 : v < 2 ^ 21
  · rw [encode_three_bytes (by omega) h3]; exact fun h => Outcome.noConfusion h
  by_cases h4 : v < 2 ^ 28
  · rw [encode_four_bytes (by omega) h4]; exact fun h => Outcome.noConfusion h
  · rw [encode_five_groups (by omega)]; exact fun h => Outcome.noConfusion h


theorem consumedCount_le_cap (cap : Nat) (data : List Nat) : consumedCount cap data ≤ cap := by
  unfold consumedCount
  split <;> omega

theorem consumedCount_le_length (cap : Nat) (data : List Nat) :
    consumedCount cap data ≤ data.length := by
  unfold consumedCount
  split <;> omega

theorem consumedCount_cons_clear {b : Nat} (rest : List Nat) {cap : Nat} (hb : b &&& 0x80 = 0)
    (hc : 1 ≤ cap) : consumedCount cap (b :: rest) = 1 := by
  simp [consumedCount, firstClearIndex, hb]
  omega

theorem consumedCount_cons_set {b : Nat} (rest : List Nat) {cap : Nat} (hb : ¬ b &&& 0x80 = 0)
    (hc : 1 ≤ cap) : consumedCount cap (b :: rest) = consumedCount (cap - 1) rest + 1 := by
  simp only [consumedCount, firstClearIndex, hb, if_false, List.length_cons]
  cases firstClearIndex rest with
  | none => simp only [Option.map_none']; omega
  | some p => simp only [Option.map_some']; omega

theorem concat7_lt (bs : List Nat) : ∀ (acc i : Nat), acc < 128 ^ i →
    concat7 acc bs < 128 ^ (i + bs.length) := by
  induction bs with
  | nil => intro acc i h; simpa [concat7] using h
  | cons b rest ih =>
    intro acc i h
    have hb : b % 128 < 128 := Nat.mod_lt _ (by decide)
    have h1 : acc * 128 + b % 128 < 128 ^ (i + 1) := by
      rw [pow_succ]; nlinarith
    have := ih (acc * 128 + b % 128) (i + 1) h1
    simpa [concat7, Nat.add_assoc, Nat.add_comm 1] using this

theorem decode_step_eq {value i : Nat} (b : Nat) (hi : i ≤ 3) (hv : value < 128 ^ i) :
    ((value <<< 7) % 2 ^ 32) ||| (b &&& 0x7F) = value * 128 + b % 128 := by
  have h3 : (128 : Nat) ^ i ≤ 128 ^ 3 := Nat.pow_le_pow_right (by decide) hi
  have hlt : value * 128 < 2 ^ 32 := by
    have : (128 : Nat) ^ 3 = 2097152 := by norm_num
    omega
  rw [shiftLeft_7_eq_mul, Nat.mod_eq_of_lt hlt, and_7F_eq_mod,
    mul_128_or_eq_add value (Nat.mod_lt _ (by decide))]

theorem decodeLoop_eq (data : List Nat) : ∀ (i value bytesRead : Nat), i ≤ 3 → value < 128 ^ i →
    decodeLoop data i value bytesRead =
      (concat7 value (data.take (consumedCount (4 - i) data)),
        bytesRead + consumedCount (4 - i) data) := by
  induction data with
  | nil => intro i value bytesRead _ _; simp [decodeLoop, consumedCount, firstClearIndex, concat7]
  | cons b rest ih =>
    intro i value bytesRead hi hv
    have hstep := decode_step_eq b hi hv
    simp only [Nat.reducePow] at hstep
    by_cases hb : b &&& 0x80 = 0
    · simp [decodeLoop, hb, consumedCount_cons_clear rest hb (show 1 ≤ 4 - i by omega), hstep,
        concat7]
    · by_cases h3 : i ≥ 3
      · have hi3 : i = 3 := by omega
        subst hi3
        have hc : consumedCount (4 - 3) (b :: rest) = 1 := by
          have h1 := consumedCount_le_cap (4 - 3) (b :: rest)
          have h2 := consumedCount_cons_set rest hb (show 1 ≤ 4 - 3 by omega)
          omega
        simp [decodeLoop, hb, hc, hstep, concat7]
      · have hv1 : value * 128 + b % 128 < 128 ^ (i + 1) := by
          have hb7 : b % 128 < 128 := Nat.mod_lt _ (by decide)
          rw [pow_succ]; nlinarith
        have hrec := ih (i + 1) (value * 128 + b % 128) (bytesRead + 1) (by omega) hv1
        have hc := consumedCount_cons_set rest hb (show 1 ≤ 4 - i by omega)
        have h4 : 4 - i - 1 = 4 - (i + 1) := by omega
        rw [h4] at hc
        simp only [decodeLoop, Nat.reducePow, hb, h3, if_false, hstep, hrec, hc,
          List.take_succ_cons, concat7, List.foldl_cons]
        congr 1
        omega


/-! ## The variable-length codec -/

theorem decodeLoop_cons_last {c i value : Nat} (rest : List Nat) (bytesRead : Nat)
    (hc : c < 128) (hi : i ≤ 3) (hv : value < 128 ^ i) :
    decodeLoop (c :: rest) i value bytesRead = (value * 128 + c, bytesRead + 1) := by
  have hstep := decode_step_eq c hi hv
  simp only [Nat.reducePow] at hstep
  have key : ∀ b < 128, b &&& 0x80 = 0 := by decide
  simp [decodeLoop, key c hc, hstep, Nat.mod_eq_of_lt hc]

theorem decodeLoop_cons_more {c i value : Nat} (rest : List Nat) (bytesRead : Nat)
    (hc : c < 128) (hi : i < 3) (hv : value < 128 ^ i) :
    decodeLoop ((c + 128) :: rest) i value bytesRead =
      decodeLoop rest (i + 1) (value * 128 + c) (bytesRead + 1) := by
  have hstep := decode_step_eq (c + 128) (Nat.le_of_lt hi) hv
  simp only [Nat.reducePow] at hstep
  have key : ∀ b < 128, ¬ (b + 128) &&& 0x80 = 0 := by decide
  have hmod : (c + 128) % 128 = c := by omega
  have h3 : ¬ i ≥ 3 := by omega
  simp [decodeLoop, key c hc, hstep, hmod, h3]

/-- Decoding an encoded quantity followed by arbitrary bytes gives the quantity back
and consumes exactly the encoding. -/
theorem decode_encode_append (v : Nat) (hv : v < 2 ^ 28) (rest : List Nat) :
    ∃ bytes, EncodeVarLen v = Outcome.ok bytes ∧ 1 ≤ bytes.length ∧ bytes.length ≤ 4 ∧
      DecodeVarLen (bytes ++ rest) = (v, bytes.length) := by
  by_cases h0 : v = 0
  · subst h0
    refine ⟨[0], by decide, by decide, by decide, ?_⟩
    simp [DecodeVarLen, decodeLoop]
  by_cases h1 : v < 128
  · refine ⟨[v], encode_one_byte (by omega) h1, by simp, by simp, ?_⟩
    have hlast := @decodeLoop_cons_last v 0 0 rest 0 h1 (by norm_num) (by norm_num)
    simpa [DecodeVarLen] using hlast
  by_cases h2 : v < 2 ^ 14
  · refine ⟨_, encode_two_bytes (by omega) h2, by simp, by simp, ?_⟩
    have ha : v / 128 < 128 := by omega
    have hb : v % 128 < 128 := by omega
    simp only [DecodeVarLen, List.cons_append, List.nil_append, List.length_cons,
      List.length_nil]
    rw [decodeLoop_cons_more _ _ ha (by norm_num) (by norm_num),
      decodeLoop_cons_last _ _ hb (by norm_num) (by norm_num; omega)]
    refine Prod.ext ?_ rfl
    show (0 * 128 + v / 128) * 128 + v % 128 = v
    omega
  by_cases h3 : v < 2 ^ 21
  · refine ⟨_, encode_three_bytes (by omega) h3, by simp, by simp, ?_⟩
    have ha : v / 16384 < 128 := by omega
    have hb : v / 128 % 128 < 128 := by omega
    have hc : v % 128 < 128 := by omega
    simp only [DecodeVarLen, List.cons_append, List.nil_append, List.length_cons,
      List.length_nil]
    rw [decodeLoop_cons_more _ _ ha (by norm_num) (by norm_num),
      decodeLoop_cons_more _ _ hb (by norm_num) (by norm_num; omega),
      decodeLoop_cons_last _ _ hc (by norm_num) (by norm_num; omega)]
    refine Prod.ext ?_ rfl
    show ((0 * 128 + v / 16384) * 128 + v / 128 % 128) * 128 + v % 128 = v
    omega
  · refine ⟨_, encode_four_bytes (by omega) hv, by simp, by simp, ?_⟩
    have ha : v / 2097152 < 128 := by omega
    have hb : v / 16384 % 128 < 128 := by omega
    have hc : v / 128 % 128 < 128 := by omega
    have hd : v % 128 < 128 := by omega
    simp only [DecodeVarLen, List.cons_append, List.nil_append, List.length_cons,
      List.length_nil]
    rw [decodeLoop_cons_more _ _ ha (by norm_num) (by norm_num),
      decodeLoop_cons_more _ _ hb (by norm_num) (by norm_num; omega),
      decodeLoop_cons_more _ _ hc (by norm_num) (by norm_num; omega),
      decodeLoop_cons_last _ _ hd (by norm_num) (by norm_num; omega)]
    refine Prod.ext ?_ rfl
    show (((0 * 128 + v / 2097152) * 128 + v / 16384 % 128) * 128 + v / 128 % 128) * 128 +
      v % 128 = v
    omega

/-- C1. For every `v` with `0 ≤ v ≤ 2^28 - 1`, `EncodeVarLen v` returns a byte sequence,
`DecodeVarLen` of that sequence is the pair of `v` and the length of the sequence, and
the sequence has at most 4 bytes. -/
theorem varlen_round_trip (v : Nat) (hv : v ≤ 2 ^ 28 - 1) :
    ∃ bytes, EncodeVarLen v = Outcome.ok bytes ∧
      DecodeVarLen bytes = (v, bytes.length) ∧ bytes.length ≤ 4 := by
  obtain ⟨bytes, henc, _, hlen, hdec⟩ := decode_encode_append v (by omega) []
  exact ⟨bytes, henc, by simpa using hdec, hlen⟩

theorem varlen_round_trip_witness :
    ∃ bytes, EncodeVarLen 100000 = Outcome.ok bytes ∧
      DecodeVarLen bytes = (100000, bytes.length) ∧ bytes.length ≤ 4 :=
  varlen_round_trip 100000 (by decide)

/-- C2. At the 32-bit input `2^28` (and at the largest 32-bit input) the first loop of
`EncodeVarLen` writes a fifth group at index 4 of its 4-byte buffer: the function
panics instead of returning the encoded bytes. -/
theorem encodeVarLen_panics_at_2_pow_28 :
    EncodeVarLen 268435456 = Outcome.indexOutOfRange ∧
      EncodeVarLen 4294967295 = Outcome.indexOutOfRange := by
  constructor <;> decide

theorem groupByte_eq (v k j : Nat) :
    groupByte v k j = v / 2 ^ (7 * (k - 1 - j)) % 128 + (if j < k - 1 then 128 else 0) := by
  unfold groupByte
  have hlt : v / 2 ^ (7 * (k - 1 - j)) % 128 < 128 := Nat.mod_lt _ (by decide)
  split
  · rw [Nat.shiftRight_eq_div_pow, and_7F_eq_mod, or_0x80_eq_add hlt]
  · rw [Nat.shiftRight_eq_div_pow, and_7F_eq_mod, Nat.add_zero]

theorem groupByte_high_bit (v k j : Nat) : groupByte v k j &&& 0x80 ≠ 0 ↔ j < k - 1 := by
  rw [groupByte_eq]
  have hlt : v / 2 ^ (7 * (k - 1 - j)) % 128 < 128 := Nat.mod_lt _ (by decide)
  have hset : ∀ b < 128, (b + 128) &&& 0x80 ≠ 0 := by decide
  have hclear : ∀ b < 128, b &&& 0x80 = 0 := by decide
  by_cases hj : j < k - 1
  · simp only [hj, if_true, iff_true]
    exact hset _ hlt
  · simp only [hj, if_false, iff_false, Nat.add_zero, ne_eq, not_not]
    exact hclear _ hlt

theorem pow_7_le_of_lt {k m : Nat} (h : k < m) : 2 ^ (7 * k) ≤ 2 ^ (7 * (m - 1)) :=
  Nat.pow_le_pow_right (by decide) (by omega)

/-- C3. For every `v < 2^28`, `EncodeVarLen v` returns `k` bytes, where `k` is the least
`k ≥ 1` with `v < 2^(7k)`; the byte at position `j < k` is the 7-bit group
`(v >> 7(k-1-j)) AND 0x7F`, with bit `0x80` set exactly when `j < k - 1`; and zero
encodes as the single byte `0x00`. -/
theorem encodeVarLen_groups (v : Nat) (hv : v < 2 ^ 28) :
    ∃ bytes k, EncodeVarLen v = Outcome.ok bytes ∧ bytes.length = k ∧
      1 ≤ k ∧ v < 2 ^ (7 * k) ∧ (∀ k', 1 ≤ k' → v < 2 ^ (7 * k') → k ≤ k') ∧
      (∀ j, j < k → bytes[j]? = some (groupByte v k j)) ∧
      (∀ j, j < k → (groupByte v k j &&& 0x80 ≠ 0 ↔ j < k - 1)) ∧
      (v = 0 → bytes = [0x00]) := by
  by_cases h1 : v < 128
  · have henc : EncodeVarLen v = Outcome.ok [v] := by
      by_cases h0 : v = 0
      · subst h0; decide
      · exact encode_one_byte (by omega) h1
    refine ⟨[v], 1, henc, rfl, le_refl 1, by norm_num; omega, fun k' hk' _ => hk', ?_,
      fun j _ => groupByte_high_bit v 1 j, fun h0 => by rw [h0]⟩
    intro j hj
    interval_cases j
    simp [groupByte_eq]
    omega
  by_cases h2 : v < 2 ^ 14
  · refine ⟨_, 2, encode_two_bytes (by omega) h2, rfl, by decide, by norm_num; omega, ?_, ?_,
      fun j _ => groupByte_high_bit v 2 j, fun h0 => by omega⟩
    · intro k' hk' hlt
      by_contra hcon
      have := pow_7_le_of_lt (show k' < 2 by omega)
      norm_num at this
      omega
    · intro j hj
      interval_cases j <;> (simp [groupByte_eq]; try omega)
  by_cases h3 : v < 2 ^ 21
  · refine ⟨_, 3, encode_three_bytes (by omega) h3, rfl, by decide, by norm_num; omega, ?_, ?_,
      fun j _ => groupByte_high_bit v 3 j, fun h0 => by omega⟩
    · intro k' hk' hlt
      by_contra hcon
      have := pow_7_le_of_lt (show k' < 3 by omega)
      norm_num at this
      omega
    · intro j hj
      interval_cases j <;> (simp [groupByte_eq]; try omega)
  · refine ⟨_, 4, encode_four_bytes (by omega) hv, rfl, by decide, by norm_num; omega, ?_, ?_,
      fun j _ => groupByte_high_bit v 4 j, fun h0 => by omega⟩
    · intro k' hk' hlt
      by_contra hcon
      have := pow_7_le_of_lt (show k' < 4 by omega)
      norm_num at this
      omega
    · intro j hj
      interval_cases j <;> (simp [groupByte_eq]; try omega)

theorem encodeVarLen_groups_witness :
    ∃ bytes k, EncodeVarLen 480 = Outcome.ok bytes ∧ bytes.length = k ∧
      1 ≤ k ∧ 480 < 2 ^ (7 * k) ∧ (∀ k', 1 ≤ k' → 480 < 2 ^ (7 * k') → k ≤ k') ∧
      (∀ j, j < k → bytes[j]? = some (groupByte 480 k j)) ∧
      (∀ j, j < k → (groupByte 480 k j &&& 0x80 ≠ 0 ↔ j < k - 1)) ∧
      (480 = 0 → bytes = [0x00]) :=
  encodeVarLen_groups 480 (by decide)

/-- C4. The literal vectors of `EncodeVarLen`: `0 -> [00]`, `127 -> [7F]`,
`128 -> [81 00]`, `16383 -> [FF 7F]`, `16384 -> [81 80 00]`, `480 -> [83 60]` and
`2097151 -> [FF FF 7F]`. -/
theorem encodeVarLen_vectors :
    EncodeVarLen 0 = Outcome.ok [0x00] ∧
      EncodeVarLen 127 = Outcome.ok [0x7F] ∧
      EncodeVarLen 128 = Outcome.ok [0x81, 0x00] ∧
      EncodeVarLen 16383 = Outcome.ok [0xFF, 0x7F] ∧
      EncodeVarLen 16384 = Outcome.ok [0x81, 0x80, 0x00] ∧
      EncodeVarLen 480 = Outcome.ok [0x83, 0x60] ∧
      EncodeVarLen 2097151 = Outcome.ok [0xFF, 0xFF, 0x7F] := by
  refine ⟨?_, ?_, ?_, ?_, ?_, ?_, ?_⟩ <;> decide

/-- C5. For every byte sequence `data`, `DecodeVarLen data` is the pair `(value, n)`
where `n = min(len(data), 4, p + 1)` with `p` the index of the first byte whose high
bit is clear (the last term is absent when there is no such byte) and `value` is the
big-endian concatenation of the low 7 bits of the first `n` bytes; moreover `n ≤ 4`,
`value < 2^28`, the empty sequence gives `(0, 0)`, and five bytes with the high bit set
on the first four give `(2^28 - 1, 4)`. -/
theorem decodeVarLen_spec (data : List Nat) :
    DecodeVarLen data =
        (concat7 0 (data.take (consumedCount 4 data)), consumedCount 4 data) ∧
      consumedCount 4 data ≤ 4 ∧
      (DecodeVarLen data).1 < 2 ^ 28 ∧
      DecodeVarLen [] = (0, 0) ∧
      DecodeVarLen [0xFF, 0xFF, 0xFF, 0xFF, 0x7F] = (268435455, 4) := by
  have hdec : DecodeVarLen data =
      (concat7 0 (data.take (consumedCount 4 data)), consumedCount 4 data) := by
    have h := decodeLoop_eq data 0 0 0 (by decide) (by norm_num)
    simpa [DecodeVarLen] using h
  have hcap := consumedCount_le_cap 4 data
  refine ⟨hdec, hcap, ?_, rfl, by decide⟩
  rw [hdec]
  have hlt := concat7_lt (data.take (consumedCount 4 data)) 0 0 (by norm_num)
  have hlen : (data.take (consumedCount 4 data)).length ≤ 4 := by
    rw [List.length_take]
    omega
  have hpow : (128 : Nat) ^ (0 + (data.take (consumedCount 4 data)).length) ≤ 128 ^ 4 :=
    Nat.pow_le_pow_right (by decide) (by omega)
  have h28 : (128 : Nat) ^ 4 = 2 ^ 28 := by norm_num
  show concat7 0 (data.take (consumedCount 4 data)) < 2 ^ 28
  omega

/-- C6. Decoding ignores the bytes that follow a complete quantity: for every
`v < 2^28` and every byte sequence `rest`, `DecodeVarLen (EncodeVarLen v ++ rest)` is
the pair of `v` and the length of `EncodeVarLen v`; in particular `[7F 42 99]` decodes
to `(127, 1)`. -/
theorem decodeVarLen_ignores_rest (v : Nat) (hv : v < 2 ^ 28) (rest : List Nat) :
    (∃ bytes, EncodeVarLen v = Outcome.ok bytes ∧
      DecodeVarLen (bytes ++ rest) = (v, bytes.length)) ∧
    DecodeVarLen [0x7F, 0x42, 0x99] = (127, 1) := by
  obtain ⟨bytes, henc, _, _, hdec⟩ := decode_encode_append v hv rest
  exact ⟨⟨bytes, henc, hdec⟩, by decide⟩

theorem decodeVarLen_ignores_rest_witness :
    (∃ bytes, EncodeVarLen 127 = Outcome.ok bytes ∧
      DecodeVarLen (bytes ++ [0x42, 0x99]) = (127, bytes.length)) ∧
    DecodeVarLen [0x7F, 0x42, 0x99] = (127, 1) :=
  decodeVarLen_ignores_rest 127 (by decide) [0x42, 0x99]

/-! ## Track chunks -/

theorem encodeVarLen_ok {v : Nat} (hv : v < 2 ^ 28) : ∃ d, EncodeVarLen v = Outcome.ok d := by
  obtain ⟨bytes, henc, _⟩ := decode_encode_append v hv []
  exact ⟨bytes, henc⟩

theorem encodeEvents_eq (events : List TrackEvent) : ∀ (buf : List Nat),
    (∀ e ∈ events, e.DeltaTime < 2 ^ 28) →
    encodeEvents events buf = Outcome.ok (buf ++
      (events.map fun e => (EncodeVarLen e.DeltaTime).getD [] ++ e.Data).flatten) := by
  induction events with
  | nil => intro buf _; simp [encodeEvents]
  | cons e rest ih =>
    intro buf h
    obtain ⟨d, hd⟩ := encodeVarLen_ok (h e (List.mem_cons_self e rest))
    have hrest := ih (buf ++ d ++ e.Data) fun x hx => h x (List.mem_cons_of_mem e hx)
    rw [encodeEvents, hd]
    simp only [Outcome.bind]
    rw [hrest, List.map_cons, List.flatten_cons, hd]
    simp only [Outcome.getD, List.append_assoc]

theorem chunk_layout (trackData : List Nat) (b4 b5 b6 b7 : Nat) :
    copyInto
      ((((List.set (copyInto (List.replicate (8 + trackData.length) 0) 0 4
        [0x4D, 0x54, 0x72, 0x6B]) 4 b4).set 5 b5).set 6 b6).set 7 b7) 8
      ((((List.set (copyInto (List.replicate (8 + trackData.length) 0) 0 4
        [0x4D, 0x54, 0x72, 0x6B]) 4 b4).set 5 b5).set 6 b6).set 7 b7).length trackData =
      [0x4D, 0x54, 0x72, 0x6B] ++ [b4, b5, b6, b7] ++ trackData := by
  have hrep : List.replicate (8 + trackData.length) 0 =
      0 :: 0 :: 0 :: 0 :: 0 :: 0 :: 0 :: 0 :: List.replicate trackData.length 0 := by
    rw [Nat.add_comm]
    rfl
  rw [hrep]
  simp [copyInto]
  omega

theorem bigEndian_length_field {n : Nat} (h : n < 2 ^ 32) :
    bigEndian [((n % 2 ^ 32) >>> 24) % 256, ((n % 2 ^ 32) >>> 16) % 256,
      ((n % 2 ^ 32) >>> 8) % 256, (n % 2 ^ 32) % 256] = n := by
  rw [Nat.mod_eq_of_lt h]
  simp only [bigEndian, List.foldl_cons, List.foldl_nil, Nat.shiftRight_eq_div_pow,
    Nat.reducePow]
  have h32 : n < 4294967296 := h
  omega

theorem payloadOf_addEvent (t : Track) (d : Nat) (data : List Nat) :
    payloadOf (t.AddEvent d data) = payloadOf t ++ ((EncodeVarLen d).getD [] ++ data) := by
  simp [payloadOf, Track.AddEvent]

/-- C7. For every track whose events all have a delta time below `2^28` and whose
payload is shorter than `2^32` bytes, `Track.Encode` returns the 4 bytes `MTrk`, then a
4-byte big-endian integer equal to the byte length of the payload, then the payload,
which is the concatenation over the events in append order of `EncodeVarLen` of the
delta time followed by the event's raw bytes; the result has 8 bytes more than the
payload, and the empty track encodes to `MTrk 00 00 00 00`. -/
theorem track_encode_chunk (t : Track) (hd : ∀ e ∈ t.events, e.DeltaTime < 2 ^ 28)
    (hp : (payloadOf t).length < 2 ^ 32) :
    (∀ e ∈ t.events, ∃ d, EncodeVarLen e.DeltaTime = Outcome.ok d) ∧
    (∃ lenField, lenField.length = 4 ∧ (∀ b ∈ lenField, b < 256) ∧
      bigEndian lenField = (payloadOf t).length ∧
      t.Encode = Outcome.ok ([0x4D, 0x54, 0x72, 0x6B] ++ lenField ++ payloadOf t) ∧
      ([0x4D, 0x54, 0x72, 0x6B] ++ lenField ++ payloadOf t).length =
        8 + (payloadOf t).length) ∧
    (∀ d data, payloadOf (t.AddEvent d data) =
      payloadOf t ++ ((EncodeVarLen d).getD [] ++ data)) ∧
    NewTrack.Encode = Outcome.ok [0x4D, 0x54, 0x72, 0x6B, 0, 0, 0, 0] := by
  refine ⟨fun e he => encodeVarLen_ok (hd e he), ?_, payloadOf_addEvent t, by decide⟩
  have hev : encodeEvents t.events [] = Outcome.ok (payloadOf t) := by
    have h := encodeEvents_eq t.events [] hd
    simpa [payloadOf] using h
  refine ⟨[(((payloadOf t).length % 2 ^ 32) >>> 24) % 256,
    (((payloadOf t).length % 2 ^ 32) >>> 16) % 256,
    (((payloadOf t).length % 2 ^ 32) >>> 8) % 256,
    ((payloadOf t).length % 2 ^ 32) % 256], rfl, ?_, bigEndian_length_field hp, ?_, ?_⟩
  · intro b hb
    simp only [List.mem_cons, List.mem_singleton, List.not_mem_nil, or_false] at hb
    rcases hb with h | h | h | h <;> rw [h] <;> exact Nat.mod_lt _ (by decide)
  · unfold Track.Encode
    rw [hev]
    simp only [Outcome.bind]
    rw [chunk_layout]
  · simp only [List.length_append, List.length_cons, List.length_nil]

theorem track_encode_chunk_witness :
    (∀ e ∈ ((NewTrack.AddEvent 0 [0x90, 60, 100]).AddEvent 480 [0x80, 60, 64]).events,
      ∃ d, EncodeVarLen e.DeltaTime = Outcome.ok d) ∧
    (∃ lenField, lenField.length = 4 ∧ (∀ b ∈ lenField, b < 256) ∧
      bigEndian lenField =
        (payloadOf ((NewTrack.AddEvent 0 [0x90, 60, 100]).AddEvent 480 [0x80, 60, 64])).length ∧
      ((NewTrack.AddEvent 0 [0x90, 60, 100]).AddEvent 480 [0x80, 60, 64]).Encode =
        Outcome.ok ([0x4D, 0x54, 0x72, 0x6B] ++ lenField ++
          payloadOf ((NewTrack.AddEvent 0 [0x90, 60, 100]).AddEvent 480 [0x80, 60, 64])) ∧
      ([0x4D, 0x54, 0x72, 0x6B] ++ lenField ++
          payloadOf ((NewTrack.AddEvent 0 [0x90, 60, 100]).AddEvent 480 [0x80, 60, 64])).length =
        8 + (payloadOf
          ((NewTrack.AddEvent 0 [0x90, 60, 100]).AddEvent 480 [0x80, 60, 64])).length) ∧
    (∀ d data,
      payloadOf (((NewTrack.AddEvent 0 [0x90, 60, 100]).AddEvent 480 [0x80, 60, 64]).AddEvent
        d data) =
      payloadOf ((NewTrack.AddEvent 0 [0x90, 60, 100]).AddEvent 480 [0x80, 60, 64]) ++
        ((EncodeVarLen d).getD [] ++ data)) ∧
    NewTrack.Encode = Outcome.ok [0x4D, 0x54, 0x72, 0x6B, 0, 0, 0, 0] :=
  track_encode_chunk ((NewTrack.AddEvent 0 [0x90, 60, 100]).AddEvent 480 [0x80, 60, 64])
    (by decide) (by decide)

/-! ## Events -/

theorem clamp_eq_min (x m : Nat) : (if x > m then m else x) = min x m := by
  split <;> omega

theorem status_byte_range {c : Nat} (hc : c ≤ 15) :
    (0x90 ≤ 0x90 ||| c ∧ 0x90 ||| c ≤ 0x9F) ∧ (0x80 ≤ 0x80 ||| c ∧ 0x80 ||| c ≤ 0x8F) := by
  have key : ∀ d < 16, (0x90 ≤ 0x90 ||| d ∧ 0x90 ||| d ≤ 0x9F) ∧
      (0x80 ≤ 0x80 ||| d ∧ 0x80 ||| d ≤ 0x8F) := by decide
  exact key c (by omega)

/-- C8. For all channel, note and velocity values, `NoteOn` returns exactly the 3 bytes
`[0x90 OR min(channel, 15), min(note, 127), min(velocity, 127)]` and `NoteOff` returns
`[0x80 OR min(channel, 15), min(note, 127), min(velocity, 127)]`; the status byte lies
in `0x90..0x9F` (resp. `0x80..0x8F`) and both data bytes are below 128. -/
theorem noteOn_noteOff_bytes (channel note velocity : Nat) :
    NoteOn channel note velocity =
        [0x90 ||| min channel 15, min note 127, min velocity 127] ∧
      NoteOff channel note velocity =
        [0x80 ||| min channel 15, min note 127, min velocity 127] ∧
      (0x90 ≤ 0x90 ||| min channel 15 ∧ 0x90 ||| min channel 15 ≤ 0x9F) ∧
      (0x80 ≤ 0x80 ||| min channel 15 ∧ 0x80 ||| min channel 15 ≤ 0x8F) ∧
      min note 127 < 128 ∧ min velocity 127 < 128 := by
  have hs := status_byte_range (Nat.min_le_right channel 15)
  refine ⟨?_, ?_, hs.1, hs.2, by omega, by omega⟩
  · simp only [NoteOn, clamp_eq_min]
  · simp only [NoteOff, clamp_eq_min]

theorem bpm_tempo_of_pos {bpm : Int} (h0 : 0 < bpm) (h32 : bpm < 2 ^ 32) :
    BPMToMicrosecondsPerQuarter bpm = Outcome.ok (60000000 / bpm.toNat) := by
  have hmod : bpm % 2 ^ 32 = bpm := Int.emod_eq_of_lt (le_of_lt h0) h32
  have hne : ¬ bpm.toNat = 0 := by omega
  have hle : ¬ bpm ≤ 0 := by omega
  simp only [BPMToMicrosecondsPerQuarter, hle, if_false, hmod, hne]

theorem bpm_tempo_of_nonpos {bpm : Int} (h0 : bpm ≤ 0) :
    BPMToMicrosecondsPerQuarter bpm = Outcome.ok 500000 := by
  simp only [BPMToMicrosecondsPerQuarter, h0, if_true]
  decide

theorem bigEndian_tempo_bytes {tempo : Nat} (h : tempo < 2 ^ 24) :
    bigEndian ((SetTempo tempo).drop 3) = tempo := by
  simp only [SetTempo, List.drop_succ_cons, List.drop_zero, bigEndian, List.foldl_cons,
    List.foldl_nil, Nat.shiftRight_eq_div_pow, Nat.reducePow]
  have h24 : tempo < 16777216 := h
  omega

/-- C9. For every tempo, `SetTempo tempo` is the 6 bytes
`[FF, 51, 03, (tempo >> 16) mod 256, (tempo >> 8) mod 256, tempo mod 256]` and
`EndOfTrack` is `[FF, 2F, 00]`; the last three bytes of `SetTempo tempo`, read as a
big-endian integer, equal `tempo` when `tempo < 2^24`, and so they equal
`60000000 / bpm` for the tempo computed from every `bpm` in `20..300`. -/
theorem setTempo_bytes (tempo : Nat) (bpm : Int) (hlo : 20 ≤ bpm) (hhi : bpm ≤ 300) :
    SetTempo tempo =
        [0xFF, 0x51, 0x03, (tempo >>> 16) % 256, (tempo >>> 8) % 256, tempo % 256] ∧
      (SetTempo tempo).length = 6 ∧
      EndOfTrack = [0xFF, 0x2F, 0x00] ∧
      (tempo < 2 ^ 24 → bigEndian ((SetTempo tempo).drop 3) = tempo) ∧
      (∃ t, BPMToMicrosecondsPerQuarter bpm = Outcome.ok t ∧
        ((bigEndian ((SetTempo t).drop 3) : Nat) : Int) = 60000000 / bpm) := by
  refine ⟨rfl, rfl, rfl, fun h => bigEndian_tempo_bytes h, ?_⟩
  refine ⟨60000000 / bpm.toNat, bpm_tempo_of_pos (by omega) (by omega), ?_⟩
  have hn : ((bpm.toNat : Nat) : Int) = bpm := Int.toNat_of_nonneg (by omega)
  have hq : 60000000 / bpm.toNat < 2 ^ 24 := by
    have h20 : 20 ≤ bpm.toNat := by omega
    calc 60000000 / bpm.toNat ≤ 60000000 / 20 := Nat.div_le_div_left h20 (by decide)
      _ < 2 ^ 24 := by norm_num
  rw [bigEndian_tempo_bytes hq, Int.natCast_div, hn]
  rfl

theorem setTempo_bytes_witness :
    SetTempo 428571 =
        [0xFF, 0x51, 0x03, (428571 >>> 16) % 256, (428571 >>> 8) % 256, 428571 % 256] ∧
      (SetTempo 428571).length = 6 ∧
      EndOfTrack = [0xFF, 0x2F, 0x00] ∧
      bigEndian ((SetTempo 428571).drop 3) = 428571 ∧
      (∃ t, BPMToMicrosecondsPerQuarter 140 = Outcome.ok t ∧
        ((bigEndian ((SetTempo t).drop 3) : Nat) : Int) = 60000000 / 140) :=
  have h := setTempo_bytes 428571 140 (by decide) (by decide)
  ⟨h.1, h.2.1, h.2.2.1, h.2.2.2.1 (by decide), h.2.2.2.2⟩

/-- C10. At the 64-bit input `bpm = 2^32` the conversion `uint32(bpm)` is `0` and
`BPMToMicrosecondsPerQuarter` panics with a division by zero; at `bpm = 2^32 + 1` it
returns `60000000`, not the quotient `60000000 / bpm = 0`. -/
theorem bpm_tempo_fails_at_2_pow_32 :
    BPMToMicrosecondsPerQuarter 4294967296 = Outcome.divideByZero ∧
      BPMToMicrosecondsPerQuarter 4294967297 = Outcome.ok 60000000 ∧
      (60000000 : Int) / 4294967297 = 0 := by
  refine ⟨?_, ?_, ?_⟩ <;> decide

/-! ## The file writer -/

theorem encodeHeader_eq (w : Writer) :
    w.encodeHeader = [0x4D, 0x54, 0x68, 0x64, 0x00, 0x00, 0x00, 0x06,
      (w.format >>> 8) % 256, w.format % 256,
      ((w.tracks.length % 2 ^ 16) >>> 8) % 256, (w.tracks.length % 2 ^ 16) % 256,
      (w.division >>> 8) % 256, w.division % 256] :=
  rfl

theorem bigEndian_two_bytes {n : Nat} (h : n < 2 ^ 16) :
    bigEndian [(n >>> 8) % 256, n % 256] = n := by
  simp only [bigEndian, List.foldl_cons, List.foldl_nil, Nat.shiftRight_eq_div_pow,
    Nat.reducePow]
  have h16 : n < 65536 := h
  omega

theorem encodeHeader_count_field (w : Writer) :
    bigEndian ((w.encodeHeader.drop 10).take 2) = w.tracks.length % 2 ^ 16 := by
  rw [encodeHeader_eq]
  exact bigEndian_two_bytes (Nat.mod_lt _ (by decide))

/-- C11, counterexample. A writer holding 65536 tracks has the track count field
`00 00`, whose value 0 is not the number of tracks. -/
theorem encodeHeader_track_count_wraps :
    bigEndian (((Writer.mk 0 480 (List.replicate 65536 NewTrack)).encodeHeader.drop 10).take 2)
        = 0 ∧
      (Writer.mk 0 480 (List.replicate 65536 NewTrack)).TrackCount = 65536 ∧
      bigEndian (((Writer.mk 0 480 (List.replicate 65536 NewTrack)).encodeHeader.drop 10).take 2)
        ≠ (Writer.mk 0 480 (List.replicate 65536 NewTrack)).TrackCount := by
  have hcount : ∀ n : Nat,
      bigEndian (((Writer.mk 0 480 (List.replicate n NewTrack)).encodeHeader.drop 10).take 2)
        = n % 2 ^ 16 := by
    intro n
    rw [encodeHeader_count_field, List.length_replicate]
  have hlen : ∀ n : Nat, (Writer.mk 0 480 (List.replicate n NewTrack)).TrackCount = n := by
    intro n
    simp only [Writer.TrackCount, List.length_replicate]
  refine ⟨(hcount 65536).trans (by norm_num), hlen 65536, ?_⟩
  rw [hcount 65536, hlen 65536]
  norm_num

/-- C11, amended. For every writer (format and division being 16-bit values) the
encoded header is exactly 14 bytes: `MThd`, then `00 00 00 06`, then the format as
2 bytes big-endian, then a 2-byte big-endian track count whose value is the number of
tracks held modulo `2^16` (so it is the number of tracks when the writer holds fewer
than 65536), then the division as 2 bytes big-endian. -/
theorem encodeHeader_layout (w : Writer) (hf : w.format < 2 ^ 16) (hd : w.division < 2 ^ 16) :
    w.encodeHeader.length = 14 ∧
      (∀ b ∈ w.encodeHeader, b < 256) ∧
      w.encodeHeader.take 4 = [0x4D, 0x54, 0x68, 0x64] ∧
      (w.encodeHeader.drop 4).take 4 = [0x00, 0x00, 0x00, 0x06] ∧
      bigEndian ((w.encodeHeader.drop 8).take 2) = w.format ∧
      bigEndian ((w.encodeHeader.drop 10).take 2) = w.TrackCount % 2 ^ 16 ∧
      (w.TrackCount < 2 ^ 16 → bigEndian ((w.encodeHeader.drop 10).take 2) = w.TrackCount) ∧
      bigEndian ((w.encodeHeader.drop 12).take 2) = w.division := by
  have hcount : bigEndian ((w.encodeHeader.drop 10).take 2) = w.TrackCount % 2 ^ 16 :=
    encodeHeader_count_field w
  refine ⟨rfl, ?_, rfl, rfl, ?_, hcount, ?_, ?_⟩
  · intro b hb
    rw [encodeHeader_eq] at hb
    simp only [List.mem_cons, List.mem_singleton, List.not_mem_nil, or_false] at hb
    rcases hb with h | h | h | h | h | h | h | h | h | h | h | h | h | h <;> rw [h] <;>
      first
        | exact Nat.mod_lt _ (by decide)
        | decide
  · rw [encodeHeader_eq]
    exact bigEndian_two_bytes hf
  · intro hlt
    rw [hcount, Nat.mod_eq_of_lt hlt]
  · rw [encodeHeader_eq]
    exact bigEndian_two_bytes hd

theorem encodeHeader_layout_witness :
    (Writer.mk 1 480 [NewTrack, NewTrack]).encodeHeader.length = 14 ∧
      (∀ b ∈ (Writer.mk 1 480 [NewTrack, NewTrack]).encodeHeader, b < 256) ∧
      (Writer.mk 1 480 [NewTrack, NewTrack]).encodeHeader.take 4 = [0x4D, 0x54, 0x68, 0x64] ∧
      ((Writer.mk 1 480 [NewTrack, NewTrack]).encodeHeader.drop 4).take 4 =
        [0x00, 0x00, 0x00, 0x06] ∧
      bigEndian (((Writer.mk 1 480 [NewTrack, NewTrack]).encodeHeader.drop 8).take 2) = 1 ∧
      bigEndian (((Writer.mk 1 480 [NewTrack, NewTrack]).encodeHeader.drop 10).take 2) =
        2 % 2 ^ 16 ∧
      bigEndian (((Writer.mk 1 480 [NewTrack, NewTrack]).encodeHeader.drop 10).take 2) = 2 ∧
      bigEndian (((Writer.mk 1 480 [NewTrack, NewTrack]).encodeHeader.drop 12).take 2) = 480 :=
  have h := encodeHeader_layout (Writer.mk 1 480 [NewTrack, NewTrack]) (by decide) (by decide)
  ⟨h.1, h.2.1, h.2.2.1, h.2.2.2.1, h.2.2.2.2.1, h.2.2.2.2.2.1, h.2.2.2.2.2.2.1 (by decide),
    h.2.2.2.2.2.2.2⟩

theorem writeTracks_written (writeOk : Nat → Bool) (tracks : List Track) :
    ∀ (k : Nat) (sink bytes : List Nat),
      writeTracks writeOk tracks k sink = Outcome.ok (WriteResult.written bytes) →
      ∃ chunks, List.Forall₂ (fun t c => t.Encode = Outcome.ok c) tracks chunks ∧
        bytes = sink ++ chunks.flatten := by
  induction tracks with
  | nil =>
    intro k sink bytes h
    simp only [writeTracks, Outcome.ok.injEq, WriteResult.written.injEq] at h
    exact ⟨[], List.Forall₂.nil, by simp [h]⟩
  | cons t rest ih =>
    intro k sink bytes h
    rw [writeTracks] at h
    cases henc : t.Encode with
    | ok c =>
      rw [henc] at h
      simp only [Outcome.bind] at h
      by_cases hw : writeOk k = true
      · rw [if_pos hw] at h
        obtain ⟨chunks, hall, hbytes⟩ := ih (k + 1) (sink ++ c) bytes h
        exact ⟨c :: chunks, List.Forall₂.cons henc hall, by simp [hbytes]⟩
      · rw [if_neg hw] at h
        simp at h
    | indexOutOfRange => rw [henc] at h; simp [Outcome.bind] at h
    | divideByZero => rw [henc] at h; simp [Outcome.bind] at h
    | fuelExhausted => rw [henc] at h; simp [Outcome.bind] at h

theorem writeTracks_of_all_ok (writeOk : Nat → Bool) (hw : ∀ k, writeOk k = true)
    (tracks : List Track) :
    ∀ (chunks : List (List Nat)) (k : Nat) (sink : List Nat),
      List.Forall₂ (fun t c => t.Encode = Outcome.ok c) tracks chunks →
      writeTracks writeOk tracks k sink =
        Outcome.ok (WriteResult.written (sink ++ chunks.flatten)) := by
  induction tracks with
  | nil =>
    intro chunks k sink h
    cases h
    simp [writeTracks]
  | cons t rest ih =>
    intro chunks k sink h
    cases h with
    | cons henc hall =>
      rw [writeTracks, henc]
      simp only [Outcome.bind, hw k, if_true]
      rw [ih _ (k + 1) (sink ++ _) hall]
      simp

/-- C12. `AddTrack` appends the track after all the tracks added before, increases
`TrackCount` by exactly 1 and leaves format, division and the earlier tracks
unchanged; the bytes a successful `WriteFile` has sent to the file are the 14-byte
header followed by `Track.Encode` of each held track in insertion order, so their
number is 14 plus the sum of the lengths of the encoded tracks; and `WriteFile` does
succeed when the file can be created, every write completes and every track encodes. -/
theorem writer_addTrack_writeFile (w : Writer) (createOk : Bool) (writeOk : Nat → Bool) :
    (∀ t, (w.AddTrack t).tracks = w.tracks ++ [t] ∧
      (w.AddTrack t).TrackCount = w.TrackCount + 1 ∧
      (w.AddTrack t).format = w.format ∧ (w.AddTrack t).division = w.division) ∧
    (∀ bytes, w.WriteFile createOk writeOk = Outcome.ok (WriteResult.written bytes) →
      ∃ chunks, List.Forall₂ (fun t c => t.Encode = Outcome.ok c) w.tracks chunks ∧
        bytes = w.encodeHeader ++ chunks.flatten ∧
        w.encodeHeader.length = 14 ∧
        bytes.length = 14 + (chunks.map List.length).sum) ∧
    (∀ chunks, List.Forall₂ (fun t c => t.Encode = Outcome.ok c) w.tracks chunks →
      w.WriteFile true (fun _ => true) =
        Outcome.ok (WriteResult.written (w.encodeHeader ++ chunks.flatten))) := by
  refine ⟨fun t => ⟨rfl, ?_, rfl, rfl⟩, ?_, ?_⟩
  · simp [Writer.TrackCount, Writer.AddTrack]
  · intro bytes h
    unfold Writer.WriteFile at h
    by_cases hc : createOk = true
    · rw [if_pos hc] at h
      by_cases h0 : writeOk 0 = true
      · simp only [h0, if_true] at h
        obtain ⟨chunks, hall, hbytes⟩ := writeTracks_written writeOk w.tracks 1 _ bytes h
        refine ⟨chunks, hall, hbytes, rfl, ?_⟩
        rw [hbytes, List.length_append, List.length_flatten]
        rfl
      · simp [h0] at h
    · rw [if_neg hc] at h
      simp at h
  · intro chunks hall
    unfold Writer.WriteFile
    simp only [if_true]
    exact writeTracks_of_all_ok (fun _ => true) (fun _ => rfl) w.tracks chunks 1 _ hall

theorem writer_addTrack_writeFile_witness :
    (∃ chunks, List.Forall₂ (fun t c => t.Encode = Outcome.ok c)
        (Writer.mk 0 480 [NewTrack.AddEndOfTrack 0]).tracks chunks ∧
      [0x4D, 0x54, 0x68, 0x64, 0, 0, 0, 6, 0, 0, 0, 1, 0x01, 0xE0,
        0x4D, 0x54, 0x72, 0x6B, 0, 0, 0, 4, 0, 0xFF, 0x2F, 0] =
        (Writer.mk 0 480 [NewTrack.AddEndOfTrack 0]).encodeHeader ++ chunks.flatten ∧
      (Writer.mk 0 480 [NewTrack.AddEndOfTrack 0]).encodeHeader.length = 14 ∧
      [0x4D, 0x54, 0x68, 0x64, 0, 0, 0, 6, 0, 0, 0, 1, 0x01, 0xE0,
        0x4D, 0x54, 0x72, 0x6B, 0, 0, 0, 4, 0, 0xFF, 0x2F, 0].length =
        14 + (chunks.map List.length).sum) ∧
    (Writer.mk 0 480 [NewTrack.AddEndOfTrack 0]).WriteFile true (fun _ => true) =
      Outcome.ok (WriteResult.written
        ((Writer.mk 0 480 [NewTrack.AddEndOfTrack 0]).encodeHeader ++
          [[0x4D, 0x54, 0x72, 0x6B, 0, 0, 0, 4, 0, 0xFF, 0x2F, 0]].flatten)) :=
  have h := writer_addTrack_writeFile (Writer.mk 0 480 [NewTrack.AddEndOfTrack 0]) true
    (fun _ => true)
  ⟨h.2.1 _ (by decide),
    h.2.2 [[0x4D, 0x54, 0x72, 0x6B, 0, 0, 0, 4, 0, 0xFF, 0x2F, 0]]
      (List.Forall₂.cons (by decide) List.Forall₂.nil)⟩

/-! ## Pitch, velocity and rhythm -/

theorem fnvWrite_eq_foldl (data : List Nat) : ∀ (hash : Nat),
    music.fnvWrite data hash =
      data.foldl (fun acc b => ((acc ^^^ b) * 16777619) % 2 ^ 32) hash := by
  induction data with
  | nil => intro hash; rfl
  | cons c rest ih => intro hash; simp only [music.fnvWrite, List.foldl_cons, ih]

theorem pentatonic_get (i : Nat) (hi : i < music.pentatonic.length) :
    music.pentatonic.get ⟨i, hi⟩ = [0, 3, 5, 7, 10].getD i 0 ∧
      [0, 3, 5, 7, 10].getD i 0 ≤ 10 := by
  have hi5 : i < 5 := hi
  interval_cases i <;> exact ⟨rfl, by decide⟩

theorem hashToPitch_eq (h : List Nat) :
    music.hashToPitch h =
      min 84 (60 + [0, 3, 5, 7, 10].getD (music.fnv32a h % 5) 0 +
        12 * ((music.fnv32a h / 5) % 3)) := by
  have hget := pentatonic_get (music.fnv32a h % 5) (Nat.mod_lt _ (by decide))
  have ho : (music.fnv32a h / 5) % 3 < 3 := Nat.mod_lt _ (by decide)
  unfold music.hashToPitch
  simp only [show music.pentatonic.length = 5 from rfl, hget.1]
  have hs := hget.2
  generalize [0, 3, 5, 7, 10].getD (music.fnv32a h % 5) 0 = s at hs ⊢
  generalize (music.fnv32a h / 5) % 3 = o at ho ⊢
  split_ifs <;> omega

/-- C13. For every string `h` (empty or not), `hashToPitch h` is
`min(84, 60 + scale[H mod 5] + 12 * ((H div 5) mod 3))` with `scale = [0,3,5,7,10]`
and `H` the 32-bit FNV-1a hash of the bytes of `h` (start 2166136261; per byte: XOR the
byte, then multiply by 16777619 modulo `2^32`); the result lies in `[60, 84]` and equal
strings give equal pitches. -/
theorem hashToPitch_spec (h : List Nat) :
    (∃ H, H = h.foldl (fun acc b => ((acc ^^^ b) * 16777619) % 2 ^ 32) 2166136261 ∧
      music.hashToPitch h = min 84 (60 + [0, 3, 5, 7, 10].getD (H % 5) 0 + 12 * ((H / 5) % 3))) ∧
    60 ≤ music.hashToPitch h ∧ music.hashToPitch h ≤ 84 ∧
    (∀ h2, h2 = h → music.hashToPitch h2 = music.hashToPitch h) := by
  have heq := hashToPitch_eq h
  refine ⟨⟨_, rfl, ?_⟩, ?_, ?_, fun h2 e => by rw [e]⟩
  · rw [heq, music.fnv32a, fnvWrite_eq_foldl]
  · rw [heq]; omega
  · rw [heq]; omega

theorem hashToPitch_spec_witness :
    (∃ H, H = [97, 98, 99, 49, 50, 51, 52].foldl
        (fun acc b => ((acc ^^^ b) * 16777619) % 2 ^ 32) 2166136261 ∧
      music.hashToPitch [97, 98, 99, 49, 50, 51, 52] =
        min 84 (60 + [0, 3, 5, 7, 10].getD (H % 5) 0 + 12 * ((H / 5) % 3))) ∧
    60 ≤ music.hashToPitch [97, 98, 99, 49, 50, 51, 52] ∧
    music.hashToPitch [97, 98, 99, 49, 50, 51, 52] ≤ 84 ∧
    music.hashToPitch [97, 98, 99, 49, 50, 51, 52] =
      music.hashToPitch [97, 98, 99, 49, 50, 51, 52] :=
  have h := hashToPitch_spec [97, 98, 99, 49, 50, 51, 52]
  ⟨h.1, h.2.1, h.2.2.1, h.2.2.2 [97, 98, 99, 49, 50, 51, 52] rfl⟩

theorem messageToVelocity_eq (m : List Nat) :
    music.messageToVelocity m = 40 + min m.length 200 * 87 / 200 := by
  unfold music.messageToVelocity
  simp only [show 127 - 40 = 87 from rfl]
  rcases Nat.lt_or_ge 200 m.length with hlong | hshort
  · rw [Nat.min_eq_right (Nat.le_of_lt hlong)]
    split_ifs <;> omega
  · rw [Nat.min_eq_left hshort]
    split_ifs <;> omega

/-- C14. For every message `m`, `messageToVelocity m` is
`40 + floor(min(len(m), 200) * 87 / 200)` with `len` the byte length; the result lies
in `[40, 127]`, is 40 for the empty message and 127 for every message of length 200 or
more. -/
theorem messageToVelocity_spec (m : List Nat) :
    music.messageToVelocity m = 40 + min m.length 200 * 87 / 200 ∧
      40 ≤ music.messageToVelocity m ∧ music.messageToVelocity m ≤ 127 ∧
      music.messageToVelocity [] = 40 ∧
      (200 ≤ m.length → music.messageToVelocity m = 127) := by
  have heq := messageToVelocity_eq m
  refine ⟨heq, ?_, ?_, by decide, ?_⟩
  · rw [heq]; omega
  · rw [heq]; omega
  · intro h; rw [heq]; omega

theorem messageToVelocity_spec_witness :
    music.messageToVelocity (List.replicate 200 97) =
        40 + min (List.replicate 200 97).length 200 * 87 / 200 ∧
      40 ≤ music.messageToVelocity (List.replicate 200 97) ∧
      music.messageToVelocity (List.replicate 200 97) ≤ 127 ∧
      music.messageToVelocity [] = 40 ∧
      music.messageToVelocity (List.replicate 200 97) = 127 :=
  have h := messageToVelocity_spec (List.replicate 200 97)
  ⟨h.1, h.2.1, h.2.2.1, h.2.2.2.1, h.2.2.2.2 (List.length_replicate 200 97).ge⟩

/-- C15. The velocity is monotonic non-decreasing in the length of the message: if
`len(m1) ≤ len(m2)` then `messageToVelocity m1 ≤ messageToVelocity m2`; and it depends
only on the length of the message, not on its content. -/
theorem messageToVelocity_mono (m1 m2 : List Nat) (h : m1.length ≤ m2.length) :
    music.messageToVelocity m1 ≤ music.messageToVelocity m2 ∧
      (∀ m3 : List Nat, m3.length = m1.length →
        music.messageToVelocity m3 = music.messageToVelocity m1) := by
  refine ⟨?_, fun m3 h3 => ?_⟩
  · rw [messageToVelocity_eq, messageToVelocity_eq]; omega
  · rw [messageToVelocity_eq, messageToVelocity_eq, h3]

theorem messageToVelocity_mono_witness :
    music.messageToVelocity [102, 105, 120] ≤ music.messageToVelocity [97, 100, 100, 32, 120] ∧
      music.messageToVelocity [97, 98, 99] = music.messageToVelocity [102, 105, 120] :=
  have h := messageToVelocity_mono [102, 105, 120] [97, 100, 100, 32, 120] (by decide)
  ⟨h.1, h.2 [97, 98, 99] rfl⟩

theorem tmod_4_of_tmod_8 {j : Int} (h : j.tmod 8 = 0) : j.tmod 4 = 0 := by
  have h8 : (8 : Int) ∣ j := Int.dvd_of_tmod_eq_zero h
  exact Int.tmod_eq_zero_of_dvd (by omega)

/-- The third branch of `calculateRhythm` is dead: for every index and every base
duration the function is the one without it. -/
theorem calculateRhythm_dead_branch (i : Int) (d : Nat) :
    music.calculateRhythm i d =
      if i = 0 then d else if i.tmod 4 = 0 then ((d * 3) % 2 ^ 32) / 4 else d := by
  unfold music.calculateRhythm
  by_cases h0 : i = 0
  · simp only [h0, if_true]
  · by_cases h4 : i.tmod 4 = 0
    · simp only [h0, h4, if_true, if_false]
    · have h8 : ¬ i.tmod 8 = 0 := fun h => h4 (tmod_4_of_tmod_8 h)
      simp only [h0, h4, h8, if_false]

theorem calculateRhythm_of_nonneg {i : Int} {d : Nat} (hi : 0 ≤ i) (hd : 3 * d < 2 ^ 32) :
    music.calculateRhythm i d = if i = 0 ∨ i % 4 ≠ 0 then d else 3 * d / 4 := by
  rw [calculateRhythm_dead_branch, Int.tmod_eq_emod hi (by decide),
    Nat.mod_eq_of_lt (by omega : d * 3 < 2 ^ 32), Nat.mul_comm d 3]
  by_cases h0 : i = 0
  · simp [h0]
  · by_cases h4 : i % 4 = 0
    · simp [h0, h4]
    · simp [h0, h4]

/-- C16. For every index `i ≥ 0` and every base duration `d` with `3 * d < 2^32`,
`calculateRhythm i d` is `d` when `i = 0` or `i mod 4 ≠ 0`, and `floor(3 * d / 4)` when
`i > 0` and `i mod 4 = 0`; the branch `i mod 8 = 0 -> 5 * d / 4` is never taken, so the
values at 0, 4 and 8 are `d`, `floor(3d/4)` and `floor(3d/4)`, the last one not being
`floor(5d/4)`. -/
theorem calculateRhythm_spec (i : Int) (d : Nat) (hi : 0 ≤ i) (hd : 3 * d < 2 ^ 32) :
    (i = 0 ∨ i % 4 ≠ 0 → music.calculateRhythm i d = d) ∧
      (0 < i ∧ i % 4 = 0 → music.calculateRhythm i d = 3 * d / 4) ∧
      (∀ (j : Int) (e : Nat), music.calculateRhythm j e =
        if j = 0 then e else if j.tmod 4 = 0 then ((e * 3) % 2 ^ 32) / 4 else e) ∧
      music.calculateRhythm 0 d = d ∧
      music.calculateRhythm 4 d = 3 * d / 4 ∧
      music.calculateRhythm 8 d = 3 * d / 4 ∧
      (1 ≤ d → music.calculateRhythm 8 d ≠ 5 * d / 4) := by
  have h8 : music.calculateRhythm 8 d = 3 * d / 4 := by
    rw [calculateRhythm_of_nonneg (by decide) hd]; simp
  refine ⟨fun h => ?_, fun h => ?_, calculateRhythm_dead_branch, ?_, ?_, h8, fun h1 => ?_⟩
  · rw [calculateRhythm_of_nonneg hi hd, if_pos h]
  · rw [calculateRhythm_of_nonneg hi hd, if_neg (by omega)]
  · rw [calculateRhythm_of_nonneg (le_refl 0) hd]; simp
  · rw [calculateRhythm_of_nonneg (by decide) hd]; simp
  · rw [h8]
    by_cases hd1 : d = 1
    · subst hd1; decide
    · have hlt : 3 * d / 4 < 5 * d / 4 := by omega
      exact Nat.ne_of_lt hlt

theorem calculateRhythm_spec_witness :
    music.calculateRhythm 3 120 = 120 ∧
      (∀ (j : Int) (e : Nat), music.calculateRhythm j e =
        if j = 0 then e else if j.tmod 4 = 0 then ((e * 3) % 2 ^ 32) / 4 else e) ∧
      music.calculateRhythm 0 120 = 120 ∧
      music.calculateRhythm 4 120 = 3 * 120 / 4 ∧
      music.calculateRhythm 8 120 = 3 * 120 / 4 ∧
      music.calculateRhythm 8 120 ≠ 5 * 120 / 4 :=
  have h := calculateRhythm_spec 3 120 (by decide) (by decide)
  ⟨h.1 (by decide), h.2.2.1, h.2.2.2.1, h.2.2.2.2.1, h.2.2.2.2.2.1, h.2.2.2.2.2.2 (by decide)⟩

/-- C17, counterexample. With the base duration 1, which the configuration accepts,
the rhythm duration at index 4 is `1 * 3 / 4 = 0`: it is not positive. -/
theorem calculateRhythm_zero_at_duration_one :
    music.calculateRhythm 4 1 = 0 ∧
      ¬ ∀ (i : Int) (d : Nat), 0 ≤ i → 1 ≤ d → d ≤ 4800 → music.calculateRhythm i d > 0 := by
  have h0 : music.calculateRhythm 4 1 = 0 := by decide
  refine ⟨h0, fun hall => ?_⟩
  have hpos := hall 4 1 (by decide) (by decide) (by decide)
  rw [h0] at hpos
  exact Nat.lt_irrefl 0 hpos

/-- C17, amended. For every index `i ≥ 0` and every base duration `d` with
`2 ≤ d ≤ 4800`, `calculateRhythm i d > 0`; with `d = 1` the result is 1 when `i = 0` or
`i mod 4 ≠ 0` and 0 when `i` is a positive multiple of 4. -/
theorem calculateRhythm_pos (i : Int) (d : Nat) (hi : 0 ≤ i) (hlo : 2 ≤ d) (hhi : d ≤ 4800) :
    music.calculateRhythm i d > 0 ∧
      music.calculateRhythm i 1 = (if i = 0 ∨ i % 4 ≠ 0 then 1 else 0) := by
  constructor
  · rw [calculateRhythm_of_nonneg hi (by omega)]
    split_ifs <;> omega
  · rw [calculateRhythm_of_nonneg hi (by decide)]

theorem calculateRhythm_pos_witness :
    music.calculateRhythm 4 2 > 0 ∧
      music.calculateRhythm 4 1 = (if (4 : Int) = 0 ∨ (4 : Int) % 4 ≠ 0 then 1 else 0) :=
  calculateRhythm_pos 4 2 (by decide) (by decide) (by decide)

/-! ## The generator -/

theorem generate_nil (g : music.Generator) :
    music.Generate g [] = Outcome.ok (none, some music.GenError.ErrNoCommits) :=
  rfl

/-- What `Generate` returns for a non-empty commit sequence once the tempo has been
computed. -/
theorem generate_of_tempo (g : music.Generator) {commits : List git.Commit} {tempo : Nat}
    (hne : commits ≠ []) (ht : BPMToMicrosecondsPerQuarter g.config.BPM = Outcome.ok tempo) :
    music.Generate g commits =
      if g.config.Mode = music.ModeSingleTrack then
        Outcome.ok (some (music.generateSingleTrack g
          (NewWriter (if g.config.Mode = music.ModePerAuthor then 1 else 0)
            (g.config.Ticks % 2 ^ 16).toNat) commits tempo).1, none)
      else if g.config.Mode = music.ModePerAuthor then
        Outcome.ok (some (music.generatePerAuthorTracks g
          (NewWriter (if g.config.Mode = music.ModePerAuthor then 1 else 0)
            (g.config.Ticks % 2 ^ 16).toNat) commits tempo).1, none)
      else
        Outcome.ok (none, some music.GenError.ErrInvalidMode) := by
  have hlen : ¬ commits.length = 0 := fun h => hne (List.length_eq_zero.mp h)
  unfold music.Generate
  rw [if_neg hlen, ht]
  rfl

/-- Away from the division by zero, `Generate` returns a writer exactly when the commit
sequence is non-empty and the mode is one of the two known ones, and the errors are
as documented. -/
theorem generate_results (g : music.Generator) (commits : List git.Commit) (tempo : Nat)
    (ht : BPMToMicrosecondsPerQuarter g.config.BPM = Outcome.ok tempo) :
    (commits = [] →
      music.Generate g commits = Outcome.ok (none, some music.GenError.ErrNoCommits)) ∧
    (commits ≠ [] → g.config.Mode ≠ music.ModeSingleTrack →
      g.config.Mode ≠ music.ModePerAuthor →
      music.Generate g commits = Outcome.ok (none, some music.GenError.ErrInvalidMode)) ∧
    (commits ≠ [] →
      g.config.Mode = music.ModeSingleTrack ∨ g.config.Mode = music.ModePerAuthor →
      ∃ w, music.Generate g commits = Outcome.ok (some w, none)) := by
  refine ⟨fun h => by rw [h]; rfl, fun hne h0 h1 => ?_, fun hne hmode => ?_⟩
  · rw [generate_of_tempo g hne ht, if_neg h0, if_neg h1]
  · rw [generate_of_tempo g hne ht]
    rcases hmode with h0 | h1
    · rw [if_pos h0]; exact ⟨_, rfl⟩
    · have h0 : ¬ g.config.Mode = music.ModeSingleTrack := by
        rw [h1]; decide
      rw [if_neg h0, if_pos h1]; exact ⟨_, rfl⟩

/-- C18. With `BPM = 2^32` the tempo computation inside `Generate` divides by zero
(the same defect as in `BPMToMicrosecondsPerQuarter`): for a non-empty commit sequence
`Generate` panics, in single-track mode where a writer is expected and with an
unrecognized mode where `ErrInvalidMode` is expected; the empty sequence still gives
`ErrNoCommits`. -/
theorem generate_panics_at_bpm_2_pow_32 :
    music.Generate ⟨⟨4294967296, 480, 120, music.ModeSingleTrack⟩⟩
        [⟨[97, 98, 99, 49, 50, 51, 52], 0, [65], [102, 105, 120]⟩] = Outcome.divideByZero ∧
      music.Generate ⟨⟨4294967296, 480, 120, 7⟩⟩
        [⟨[97, 98, 99, 49, 50, 51, 52], 0, [65], [102, 105, 120]⟩] = Outcome.divideByZero ∧
      music.Generate ⟨⟨4294967296, 480, 120, 7⟩⟩ [] =
        Outcome.ok (none, some music.GenError.ErrNoCommits) := by
  refine ⟨?_, ?_, ?_⟩ <;> decide

/-- The events the loop of `generateSingleTrack` appends: two per commit, the note-on
at the even and the note-off at the odd positions. -/
theorem singleTrackLoop_events (g : music.Generator) (commits : List git.Commit) :
    ∀ (i0 ct : Nat) (track : Track), ∃ tail,
      (music.singleTrackLoop g commits i0 ct track).events = track.events ++ tail ∧
      tail.length = 2 * commits.length ∧
      ∀ (k : Nat) (c : git.Commit), commits[k]? = some c →
        tail[2 * k]? = some
          { DeltaTime := if k = 0 then ct else
              ((music.calculateRhythm ((i0 + (k - 1) : Nat) : Int)
                (g.config.Duration % 2 ^ 32).toNat * 3) % 2 ^ 32) / 4,
            Data := NoteOn 0 (music.hashToPitch c.Hash) (music.messageToVelocity c.Message) } ∧
        tail[2 * k + 1]? = some
          { DeltaTime := music.calculateRhythm ((i0 + k : Nat) : Int)
              (g.config.Duration % 2 ^ 32).toNat,
            Data := NoteOff 0 (music.hashToPitch c.Hash) 64 } := by
  induction commits with
  | nil =>
    intro i0 ct track
    exact ⟨[], by simp [music.singleTrackLoop], rfl, fun k c h => by simp at h⟩
  | cons c0 rest ih =>
    intro i0 ct track
    obtain ⟨tail, hev, hlen, hidx⟩ := ih (i0 + 1)
      (((music.calculateRhythm (i0 : Int) (g.config.Duration % 2 ^ 32).toNat * 3) % 2 ^ 32) / 4)
      ((track.AddNoteOn ct 0 (music.hashToPitch c0.Hash)
        (music.messageToVelocity c0.Message)).AddNoteOff
        (music.calculateRhythm (i0 : Int) (g.config.Duration % 2 ^ 32).toNat) 0
        (music.hashToPitch c0.Hash) 64)
    refine ⟨TrackEvent.mk ct
        (NoteOn 0 (music.hashToPitch c0.Hash) (music.messageToVelocity c0.Message)) ::
      TrackEvent.mk (music.calculateRhythm (i0 : Int) (g.config.Duration % 2 ^ 32).toNat)
        (NoteOff 0 (music.hashToPitch c0.Hash) 64) :: tail, ?_, ?_, ?_⟩
    · rw [music.singleTrackLoop, hev]
      simp only [Track.AddNoteOff, Track.AddNoteOn, Track.AddEvent, List.append_assoc,
        List.singleton_append, List.cons_append, List.nil_append]
    · simp only [List.length_cons, hlen]
      omega
    · intro k c hk
      cases k with
      | zero =>
        simp only [List.getElem?_cons_zero, Option.some.injEq] at hk
        subst hk
        simp
      | succ j =>
        simp only [List.getElem?_cons_succ] at hk
        obtain ⟨hon, hoff⟩ := hidx j c hk
        have e1 : 2 * (j + 1) = (2 * j + 1) + 1 := by omega
        have e3 : i0 + (j + 1) = i0 + 1 + j := by omega
        rw [e1]
        simp only [List.getElem?_cons_succ]
        rw [hon, hoff, e3]
        refine ⟨?_, rfl⟩
        cases j with
        | zero => simp
        | succ m =>
          have e4 : i0 + 1 + (m + 1 - 1) = i0 + (m + 1 + 1 - 1) := by omega
          rw [e4, if_neg (Nat.add_one_ne_zero m), if_neg (Nat.add_one_ne_zero (m + 1))]

/-- The track built by `generateSingleTrack`: the tempo event, the events of the loop,
the end of track. -/
theorem generateSingleTrack_events (g : music.Generator) (w : Writer)
    (commits : List git.Commit) (tempo : Nat) :
    ∃ tail,
      music.generateSingleTrack g w commits tempo =
        (w.AddTrack (Track.mk
          (TrackEvent.mk 0 (SetTempo tempo) :: (tail ++ [TrackEvent.mk 0 EndOfTrack]))), none) ∧
      tail.length = 2 * commits.length ∧
      ∀ (k : Nat) (c : git.Commit), commits[k]? = some c →
        tail[2 * k]? = some
          { DeltaTime := if k = 0 then 0 else
              ((music.calculateRhythm ((0 + (k - 1) : Nat) : Int)
                (g.config.Duration % 2 ^ 32).toNat * 3) % 2 ^ 32) / 4,
            Data := NoteOn 0 (music.hashToPitch c.Hash) (music.messageToVelocity c.Message) } ∧
        tail[2 * k + 1]? = some
          { DeltaTime := music.calculateRhythm ((0 + k : Nat) : Int)
              (g.config.Duration % 2 ^ 32).toNat,
            Data := NoteOff 0 (music.hashToPitch c.Hash) 64 } := by
  obtain ⟨tail, hev, hlen, hidx⟩ :=
    singleTrackLoop_events g commits 0 0 (NewTrack.AddTempo 0 tempo)
  refine ⟨tail, ?_, hlen, hidx⟩
  unfold music.generateSingleTrack
  simp only [Track.AddEndOfTrack, Track.AddEvent, hev]
  rfl

/-- In single-track mode, away from the division by zero, `Generate` yields a writer
with format 0, the division `Ticks` and exactly one track, which has `2 + 2n` events,
starts with the tempo event and ends with the end of track. -/
theorem generate_single_track (g : music.Generator) (commits : List git.Commit) (tempo : Nat)
    (hmode : g.config.Mode = music.ModeSingleTrack) (hne : commits ≠ [])
    (hlo : 96 ≤ g.config.Ticks) (hhi : g.config.Ticks ≤ 960)
    (ht : BPMToMicrosecondsPerQuarter g.config.BPM = Outcome.ok tempo) :
    ∃ track, music.Generate g commits =
        Outcome.ok (some (Writer.mk 0 g.config.Ticks.toNat [track]), none) ∧
      track.EventCount = 2 + 2 * commits.length ∧
      track.events.head? = some (TrackEvent.mk 0 (SetTempo tempo)) ∧
      track.events.getLast? = some (TrackEvent.mk 0 EndOfTrack) := by
  obtain ⟨tail, hgen, hlen, _⟩ := generateSingleTrack_events g
    (NewWriter (if g.config.Mode = music.ModePerAuthor then 1 else 0)
      (g.config.Ticks % 2 ^ 16).toNat) commits tempo
  have hformat : (if g.config.Mode = music.ModePerAuthor then 1 else 0) = 0 := by
    rw [hmode]; decide
  have hticks : g.config.Ticks % 2 ^ 16 = g.config.Ticks :=
    Int.emod_eq_of_lt (by omega) (by omega)
  refine ⟨Track.mk
    (TrackEvent.mk 0 (SetTempo tempo) :: (tail ++ [TrackEvent.mk 0 EndOfTrack])), ?_, ?_, rfl, ?_⟩
  · rw [generate_of_tempo g hne ht, if_pos hmode, hgen, hformat, hticks]
    rfl
  · simp only [Track.EventCount, List.length_cons, List.length_append, hlen, List.length_nil]
    omega
  · rw [← List.cons_append, List.getLast?_append]
    rfl

/-- C19. In single-track mode with `BPM = 2^32` and `Ticks = 480` the tempo computation
inside `Generate` divides by zero (the same defect as in `BPMToMicrosecondsPerQuarter`),
so no writer is produced for the three commits of the end-to-end example; with
`BPM = 140` the same commits give format 0, division 480 and one track of 8 events
whose first event is the tempo event of value 428571 and whose last is the end of
track. -/
theorem generate_single_track_panics_at_bpm_2_pow_32 :
    music.Generate ⟨⟨4294967296, 480, 120, music.ModeSingleTrack⟩⟩
        [⟨[97, 98, 99, 49, 50, 51, 52], 0, [65, 108, 105, 99, 101], [102, 105, 120]⟩,
          ⟨[100, 101, 102, 53, 54, 55, 56], 1, [65, 108, 105, 99, 101], [97, 100, 100]⟩,
          ⟨[103, 104, 105, 57, 48, 49, 50], 2, [65, 108, 105, 99, 101], []⟩] =
        Outcome.divideByZero ∧
      (∃ track, music.Generate ⟨⟨140, 480, 120, music.ModeSingleTrack⟩⟩
          [⟨[97, 98, 99, 49, 50, 51, 52], 0, [65, 108, 105, 99, 101], [102, 105, 120]⟩,
            ⟨[100, 101, 102, 53, 54, 55, 56], 1, [65, 108, 105, 99, 101], [97, 100, 100]⟩,
            ⟨[103, 104, 105, 57, 48, 49, 50], 2, [65, 108, 105, 99, 101], []⟩] =
          Outcome.ok (some (Writer.mk 0 480 [track]), none) ∧
        track.EventCount = 8 ∧
        track.events.head? = some (TrackEvent.mk 0 (SetTempo 428571)) ∧
        track.events.getLast? = some (TrackEvent.mk 0 EndOfTrack)) := by
  refine ⟨by decide, ?_⟩
  obtain ⟨track, hgen, hcount, hhead, hlast⟩ := generate_single_track
    ⟨⟨140, 480, 120, music.ModeSingleTrack⟩⟩
    [⟨[97, 98, 99, 49, 50, 51, 52], 0, [65, 108, 105, 99, 101], [102, 105, 120]⟩,
      ⟨[100, 101, 102, 53, 54, 55, 56], 1, [65, 108, 105, 99, 101], [97, 100, 100]⟩,
      ⟨[103, 104, 105, 57, 48, 49, 50], 2, [65, 108, 105, 99, 101], []⟩]
    428571 rfl (by simp) (by decide) (by decide) (by decide)
  exact ⟨track, hgen, hcount, hhead, hlast⟩

theorem calculateRhythm_le {i : Int} {d : Nat} (hi : 0 ≤ i) (hd : 3 * d < 2 ^ 32) :
    music.calculateRhythm i d ≤ d := by
  rw [calculateRhythm_of_nonneg hi hd]
  split_ifs <;> omega

theorem noteOn_noteOff_channel_zero {p v : Nat} (hp : p ≤ 127) (hv : v ≤ 127) :
    NoteOn 0 p v = [0x90, p, v] ∧ NoteOff 0 p 64 = [0x80, p, 64] := by
  have hp1 : ¬ p > 127 := by omega
  have hv1 : ¬ v > 127 := by omega
  constructor
  · simp only [NoteOn, hp1, hv1, if_false]; rfl
  · simp only [NoteOff, hp1, if_false]; rfl

/-- C20. In the single-track timeline built from the commits `c_0 .. c_{n-1}` with base
duration `d` (`1 ≤ d ≤ 4800`), for every `i < n` the event at position `1 + 2i` is
`NoteOn(0, hashToPitch(c_i.Hash), messageToVelocity(c_i.Message))` with delta 0 when
`i = 0` and `floor(calculateRhythm(i-1, d) * 3 / 4)` when `i > 0`, and the event at
position `2 + 2i` is `NoteOff(0, the same pitch, 64)` with delta `calculateRhythm(i, d)`:
every note-on is immediately followed by the note-off of the same pitch and channel. -/
theorem single_track_timeline (g : music.Generator) (w : Writer) (commits : List git.Commit)
    (tempo d : Nat) (hd : g.config.Duration = (d : Int)) (hlo : 1 ≤ d) (hhi : d ≤ 4800) :
    ∃ track, music.generateSingleTrack g w commits tempo = (w.AddTrack track, none) ∧
      ∀ (i : Nat) (c : git.Commit), commits[i]? = some c →
        track.events[1 + 2 * i]? = some
          { DeltaTime := if i = 0 then 0 else music.calculateRhythm ((i : Int) - 1) d * 3 / 4,
            Data := NoteOn 0 (music.hashToPitch c.Hash) (music.messageToVelocity c.Message) } ∧
        track.events[2 + 2 * i]? = some
          { DeltaTime := music.calculateRhythm (i : Int) d,
            Data := NoteOff 0 (music.hashToPitch c.Hash) 64 } ∧
        NoteOn 0 (music.hashToPitch c.Hash) (music.messageToVelocity c.Message) =
          [0x90, music.hashToPitch c.Hash, music.messageToVelocity c.Message] ∧
        NoteOff 0 (music.hashToPitch c.Hash) 64 = [0x80, music.hashToPitch c.Hash, 64] := by
  obtain ⟨tail, hgen, hlen, hidx⟩ := generateSingleTrack_events g w commits tempo
  have hdur : (g.config.Duration % 2 ^ 32).toNat = d := by
    rw [hd, Int.emod_eq_of_lt (by omega) (by omega)]
    exact Int.toNat_ofNat d
  rw [hdur] at hidx
  refine ⟨_, hgen, fun i c hc => ?_⟩
  have hi : i < commits.length := by
    rcases Nat.lt_or_ge i commits.length with h | h
    · exact h
    · rw [List.getElem?_eq_none h] at hc
      exact absurd hc (by simp)
  obtain ⟨hon, hoff⟩ := hidx i c hc
  have hpitch : music.hashToPitch c.Hash ≤ 127 := by
    rw [hashToPitch_eq]; omega
  have hvel : music.messageToVelocity c.Message ≤ 127 := by
    rw [messageToVelocity_eq]; omega
  have hbytes := noteOn_noteOff_channel_zero hpitch hvel
  refine ⟨?_, ?_, hbytes.1, hbytes.2⟩
  · have e1 : 1 + 2 * i = 2 * i + 1 := by omega
    show (TrackEvent.mk 0 (SetTempo tempo) :: (tail ++ [TrackEvent.mk 0 EndOfTrack]))[1 + 2 * i]?
      = _
    rw [e1, List.getElem?_cons_succ, List.getElem?_append_left (by omega), hon]
    cases i with
    | zero => rfl
    | succ j =>
      have hcast : (((0 + (j + 1 - 1) : Nat) : Int)) = ((j + 1 : Nat) : Int) - 1 := by
        push_cast; omega
      have hle := @calculateRhythm_le (((j + 1 : Nat) : Int) - 1) d (by push_cast; omega)
        (by omega)
      rw [if_neg (Nat.add_one_ne_zero j), if_neg (Nat.add_one_ne_zero j), hcast,
        Nat.mod_eq_of_lt (by omega)]
  · have e2 : 2 + 2 * i = (2 * i + 1) + 1 := by omega
    show (TrackEvent.mk 0 (SetTempo tempo) :: (tail ++ [TrackEvent.mk 0 EndOfTrack]))[2 + 2 * i]?
      = _
    rw [e2, List.getElem?_cons_succ, List.getElem?_append_left (by omega), hoff, Nat.zero_add]

theorem single_track_timeline_witness :
    ∃ track, music.generateSingleTrack ⟨⟨140, 480, 120, music.ModeSingleTrack⟩⟩
        (NewWriter 0 480)
        [⟨[97, 98, 99, 49, 50, 51, 52], 0, [65], [102, 105, 120]⟩,
          ⟨[100, 101, 102, 53, 54, 55, 56], 1, [65], []⟩] 428571 =
        ((NewWriter 0 480).AddTrack track, none) ∧
      ∀ (i : Nat) (c : git.Commit),
        [(⟨[97, 98, 99, 49, 50, 51, 52], 0, [65], [102, 105, 120]⟩ : git.Commit),
          ⟨[100, 101, 102, 53, 54, 55, 56], 1, [65], []⟩][i]? = some c →
        track.events[1 + 2 * i]? = some
          { DeltaTime := if i = 0 then 0 else music.calculateRhythm ((i : Int) - 1) 120 * 3 / 4,
            Data := NoteOn 0 (music.hashToPitch c.Hash) (music.messageToVelocity c.Message) } ∧
        track.events[2 + 2 * i]? = some
          { DeltaTime := music.calculateRhythm (i : Int) 120,
            Data := NoteOff 0 (music.hashToPitch c.Hash) 64 } ∧
        NoteOn 0 (music.hashToPitch c.Hash) (music.messageToVelocity c.Message) =
          [0x90, music.hashToPitch c.Hash, music.messageToVelocity c.Message] ∧
        NoteOff 0 (music.hashToPitch c.Hash) 64 = [0x80, music.hashToPitch c.Hash, 64] :=
  single_track_timeline ⟨⟨140, 480, 120, music.ModeSingleTrack⟩⟩ (NewWriter 0 480)
    [⟨[97, 98, 99, 49, 50, 51, 52], 0, [65], [102, 105, 120]⟩,
      ⟨[100, 101, 102, 53, 54, 55, 56], 1, [65], []⟩] 428571 120 rfl (by decide) (by decide)

/-! ## Configuration, scale and commit selection -/

theorem validate_eq_none_iff (c : config.Config) :
    c.Validate = none ↔
      (c.RepoPath ≠ [] ∧ c.OutputPath ≠ [] ∧ 20 ≤ c.BPM ∧ c.BPM ≤ 300 ∧
        96 ≤ c.Ticks ∧ c.Ticks ≤ 960 ∧ 1 ≤ c.Duration ∧ c.Duration ≤ 4800 ∧
        0 ≤ c.MaxCommits) := by
  unfold config.Config.Validate
  simp only [config.MinBPM, config.MaxBPM, config.MinTicks, config.MaxTicks,
    config.MinDuration, config.MaxDuration]
  constructor
  · intro h
    split_ifs at h with h1 h2 h3 h4 h5 h6
    exact ⟨h1, h2, by omega, by omega, by omega, by omega, by omega, by omega, by omega⟩
  · rintro ⟨h1, h2, h3, h4, h5, h6, h7, h8, h9⟩
    rw [if_neg h1, if_neg h2, if_neg (by omega), if_neg (by omega), if_neg (by omega),
      if_neg (by omega)]

/-- C24. `Config.Validate` returns no error if and only if `RepoPath` is non-empty,
`OutputPath` is non-empty, `20 ≤ BPM ≤ 300`, `96 ≤ Ticks ≤ 960`, `1 ≤ Duration ≤ 4800`
and `MaxCommits ≥ 0`; the default configuration of `NewConfig` is accepted. -/
theorem config_validate_iff (c : config.Config) :
    (c.Validate = none ↔
      (c.RepoPath ≠ [] ∧ c.OutputPath ≠ [] ∧ 20 ≤ c.BPM ∧ c.BPM ≤ 300 ∧
        96 ≤ c.Ticks ∧ c.Ticks ≤ 960 ∧ 1 ≤ c.Duration ∧ c.Duration ≤ 4800 ∧
        0 ≤ c.MaxCommits)) ∧
    config.NewConfig.Validate = none :=
  ⟨validate_eq_none_iff c, by decide⟩

theorem pentatonic_values (i : Nat) (hi : i < 5) :
    [0, 3, 5, 7, 10].getD i 0 ∈ [0, 3, 5, 7, 10] := by
  interval_cases i <;> decide

/-- C25. Every derived pitch stays on the pentatonic-minor scale, also after clamping:
for every string `h`, `(hashToPitch h - 60) mod 12` is one of `0, 3, 5, 7, 10`, and
`hashToPitch h` is one of the 11 values `60, 63, 65, 67, 70, 72, 75, 77, 79, 82, 84`. -/
theorem hashToPitch_on_scale (h : List Nat) :
    (music.hashToPitch h - 60) % 12 ∈ [0, 3, 5, 7, 10] ∧
      music.hashToPitch h ∈ [60, 63, 65, 67, 70, 72, 75, 77, 79, 82, 84] := by
  have hs := pentatonic_values (music.fnv32a h % 5) (Nat.mod_lt _ (by decide))
  have ho : (music.fnv32a h / 5) % 3 < 3 := Nat.mod_lt _ (by decide)
  rw [hashToPitch_eq]
  generalize [0, 3, 5, 7, 10].getD (music.fnv32a h % 5) 0 = s at hs ⊢
  generalize (music.fnv32a h / 5) % 3 = o at ho ⊢
  simp only [List.mem_cons, List.mem_singleton, List.not_mem_nil, or_false] at hs
  interval_cases o <;> rcases hs with h0 | h0 | h0 | h0 | h0 <;> subst h0 <;> decide

/-- C26. `LimitCommits` limits the number of commits to the given count: for every
commit list `cs` and every `count > 0` the result is the prefix of `cs` of length
`min(count, len(cs))`, order and elements unchanged, and for every `count ≤ 0` the
result is `cs` itself. -/
theorem limitCommits_spec (cs : List git.Commit) (count : Int) :
    (0 < count →
      git.LimitCommits cs count = cs.take (min count.toNat cs.length) ∧
      (git.LimitCommits cs count).length = min count.toNat cs.length ∧
      git.LimitCommits cs count <+: cs) ∧
    (count ≤ 0 → git.LimitCommits cs count = cs) := by
  constructor
  · intro hpos
    have heq : git.LimitCommits cs count = cs.take (min count.toNat cs.length) := by
      unfold git.LimitCommits
      by_cases hge : count ≥ (cs.length : Int)
      · have hmin : min count.toNat cs.length = cs.length := by omega
        rw [if_pos (Or.inr hge), hmin, List.take_length]
      · have hmin : min count.toNat cs.length = count.toNat := by omega
        rw [if_neg (by omega), hmin]
    refine ⟨heq, ?_, ?_⟩
    · rw [heq, List.length_take]
      omega
    · rw [heq]
      exact List.take_prefix _ _
  · intro hle
    unfold git.LimitCommits
    rw [if_pos (Or.inl hle)]

theorem limitCommits_spec_witness :
    (git.LimitCommits [⟨[97], 0, [65], []⟩, ⟨[98], 1, [65], []⟩, ⟨[99], 2, [66], []⟩] 2 =
        [(⟨[97], 0, [65], []⟩ : git.Commit), ⟨[98], 1, [65], []⟩, ⟨[99], 2, [66], []⟩].take
          (min (2 : Int).toNat
            [(⟨[97], 0, [65], []⟩ : git.Commit), ⟨[98], 1, [65], []⟩, ⟨[99], 2, [66], []⟩].length) ∧
      (git.LimitCommits [⟨[97], 0, [65], []⟩, ⟨[98], 1, [65], []⟩, ⟨[99], 2, [66], []⟩] 2).length =
        min (2 : Int).toNat
          [(⟨[97], 0, [65], []⟩ : git.Commit), ⟨[98], 1, [65], []⟩, ⟨[99], 2, [66], []⟩].length ∧
      git.LimitCommits [⟨[97], 0, [65], []⟩, ⟨[98], 1, [65], []⟩, ⟨[99], 2, [66], []⟩] 2 <+:
        [⟨[97], 0, [65], []⟩, ⟨[98], 1, [65], []⟩, ⟨[99], 2, [66], []⟩]) ∧
    git.LimitCommits [⟨[97], 0, [65], []⟩, ⟨[98], 1, [65], []⟩, ⟨[99], 2, [66], []⟩] 0 =
      [⟨[97], 0, [65], []⟩, ⟨[98], 1, [65], []⟩, ⟨[99], 2, [66], []⟩] :=
  ⟨(limitCommits_spec [⟨[97], 0, [65], []⟩, ⟨[98], 1, [65], []⟩, ⟨[99], 2, [66], []⟩] 2).1
      (by decide),
    (limitCommits_spec [⟨[97], 0, [65], []⟩, ⟨[98], 1, [65], []⟩, ⟨[99], 2, [66], []⟩] 0).2
      (by decide)⟩

/-! ## Per-author tracks -/

theorem appendToAuthor_keys (m : List (List Nat × List git.Commit)) (c : git.Commit) :
    (music.appendToAuthor m c).map Prod.fst =
      if c.Author ∈ m.map Prod.fst then m.map Prod.fst else m.map Prod.fst ++ [c.Author] := by
  induction m with
  | nil => simp [music.appendToAuthor]
  | cons e rest ih =>
    obtain ⟨k, cs⟩ := e
    by_cases hk : k = c.Author
    · simp [music.appendToAuthor, hk]
    · have hk2 : ¬ c.Author = k := fun h => hk h.symm
      simp only [music.appendToAuthor, hk, if_false, List.map_cons, ih, List.mem_cons, hk2,
        false_or]
      split_ifs <;> simp

theorem lookup_cons_same {β : Type} (k : List Nat) (v : β) (rest : List (List Nat × β)) :
    List.lookup k ((k, v) :: rest) = some v := by
  rw [List.lookup_cons, beq_self_eq_true]

theorem lookup_cons_other {β : Type} {a k : List Nat} (h : a ≠ k) (v : β)
    (rest : List (List Nat × β)) :
    List.lookup a ((k, v) :: rest) = List.lookup a rest := by
  rw [List.lookup_cons, beq_false_of_ne h]

theorem appendToAuthor_lookup (m : List (List Nat × List git.Commit)) (c : git.Commit)
    (a : List Nat) :
    ((music.appendToAuthor m c).lookup a).getD [] =
      (m.lookup a).getD [] ++ (if c.Author = a then [c] else []) := by
  induction m with
  | nil =>
    by_cases h : c.Author = a
    · subst h
      rw [music.appendToAuthor, lookup_cons_same, if_pos rfl]
      rfl
    · have h2 : a ≠ c.Author := fun e => h e.symm
      rw [music.appendToAuthor, lookup_cons_other h2, if_neg h]
      rfl
  | cons e rest ih =>
    obtain ⟨k, cs⟩ := e
    by_cases hk : k = c.Author
    · rw [music.appendToAuthor, if_pos hk]
      by_cases ha : a = k
      · subst ha
        rw [lookup_cons_same, lookup_cons_same, if_pos hk.symm]
        rfl
      · have h2 : ¬ c.Author = a := fun e => ha (e.symm.trans hk.symm)
        rw [lookup_cons_other ha, lookup_cons_other ha, if_neg h2, List.append_nil]
    · rw [music.appendToAuthor, if_neg hk]
      by_cases ha : a = k
      · subst ha
        have h2 : ¬ c.Author = a := fun e => hk e.symm
        rw [lookup_cons_same, lookup_cons_same, if_neg h2, List.append_nil]
      · rw [lookup_cons_other ha, lookup_cons_other ha, ih]

theorem groupBy_lookup (cs : List git.Commit) :
    ∀ (m : List (List Nat × List git.Commit)) (a : List Nat),
      ((cs.foldl music.appendToAuthor m).lookup a).getD [] =
        (m.lookup a).getD [] ++ commitsOf a cs := by
  induction cs with
  | nil => intro m a; simp [commitsOf]
  | cons c rest ih =>
    intro m a
    rw [List.foldl_cons, ih, appendToAuthor_lookup, List.append_assoc]
    congr 1
    by_cases h : c.Author = a
    · simp [commitsOf, h]
    · simp [commitsOf, h]

theorem groupBy_keys_mem (cs : List git.Commit) :
    ∀ (m : List (List Nat × List git.Commit)) (a : List Nat),
      a ∈ (cs.foldl music.appendToAuthor m).map Prod.fst ↔
        a ∈ m.map Prod.fst ∨ ∃ c ∈ cs, c.Author = a := by
  induction cs with
  | nil => intro m a; simp
  | cons c rest ih =>
    intro m a
    rw [List.foldl_cons, ih, appendToAuthor_keys]
    by_cases hmem : c.Author ∈ m.map Prod.fst
    · rw [if_pos hmem]
      constructor
      · rintro (h | ⟨x, hx, hxa⟩)
        · exact Or.inl h
        · exact Or.inr ⟨x, List.mem_cons_of_mem _ hx, hxa⟩
      · rintro (h | ⟨x, hx, hxa⟩)
        · exact Or.inl h
        · rcases List.mem_cons.mp hx with hxc | hxr
          · subst hxc; subst hxa; exact Or.inl hmem
          · exact Or.inr ⟨x, hxr, hxa⟩
    · rw [if_neg hmem]
      constructor
      · rintro (h | ⟨x, hx, hxa⟩)
        · rcases List.mem_append.mp h with h1 | h1
          · exact Or.inl h1
          · exact Or.inr ⟨c, List.mem_cons_self _ _, (List.mem_singleton.mp h1).symm⟩
        · exact Or.inr ⟨x, List.mem_cons_of_mem _ hx, hxa⟩
      · rintro (h | ⟨x, hx, hxa⟩)
        · exact Or.inl (List.mem_append_left _ h)
        · rcases List.mem_cons.mp hx with hxc | hxr
          · subst hxc
            exact Or.inl (List.mem_append_right _ (List.mem_singleton.mpr hxa.symm))
          · exact Or.inr ⟨x, hxr, hxa⟩

theorem groupBy_keys_nodup (cs : List git.Commit) :
    ∀ (m : List (List Nat × List git.Commit)), (m.map Prod.fst).Nodup →
      ((cs.foldl music.appendToAuthor m).map Prod.fst).Nodup := by
  induction cs with
  | nil => intro m h; exact h
  | cons c rest ih =>
    intro m h
    rw [List.foldl_cons]
    apply ih
    rw [appendToAuthor_keys]
    by_cases hmem : c.Author ∈ m.map Prod.fst
    · rw [if_pos hmem]; exact h
    · rw [if_neg hmem]
      exact List.Nodup.append h (List.nodup_singleton _)
        (by
          intro x hx hx1
          rw [List.mem_singleton] at hx1
          subst hx1
          exact hmem hx)

/-- The sorted authors of `generatePerAuthorTracks`: strictly ascending, and exactly
the authors of the commits. -/
theorem sortedAuthors_spec (commits : List git.Commit) :
    List.Sorted (fun a b => a < b) (music.sortedAuthors (music.groupByAuthor commits)) ∧
      (music.sortedAuthors (music.groupByAuthor commits)).Nodup ∧
      ∀ a, a ∈ music.sortedAuthors (music.groupByAuthor commits) ↔
        ∃ c ∈ commits, c.Author = a := by
  have hperm := List.perm_insertionSort (fun a b : List Nat => a ≤ b)
    ((music.groupByAuthor commits).map Prod.fst)
  have hnodup0 : ((music.groupByAuthor commits).map Prod.fst).Nodup :=
    groupBy_keys_nodup commits [] List.nodup_nil
  have hnodup : (music.sortedAuthors (music.groupByAuthor commits)).Nodup :=
    hperm.nodup_iff.mpr hnodup0
  have hsorted : List.Sorted (fun a b : List Nat => a ≤ b)
      (music.sortedAuthors (music.groupByAuthor commits)) :=
    List.sorted_insertionSort _ _
  refine ⟨hsorted.lt_of_le hnodup, hnodup, fun a => ?_⟩
  have hmem : a ∈ music.sortedAuthors (music.groupByAuthor commits) ↔
      a ∈ (music.groupByAuthor commits).map Prod.fst := hperm.mem_iff
  rw [hmem, music.groupByAuthor, groupBy_keys_mem]
  simp

theorem authorsLoop_eq (g : music.Generator) (tempo : Nat)
    (m : List (List Nat × List git.Commit)) (authors : List (List Nat)) :
    ∀ (k : Nat) (w : Writer),
      music.authorsLoop g tempo m authors k w =
        { format := w.format, division := w.division,
          tracks := w.tracks ++ authorTracks g tempo m authors k } := by
  induction authors with
  | nil => intro k w; simp [music.authorsLoop, authorTracks]
  | cons a rest ih =>
    intro k w
    rw [music.authorsLoop, ih]
    simp only [Writer.AddTrack, authorTracks, authorTrack, List.append_assoc,
      List.singleton_append]

theorem authorTracks_length (g : music.Generator) (tempo : Nat)
    (m : List (List Nat × List git.Commit)) (authors : List (List Nat)) :
    ∀ (k : Nat), (authorTracks g tempo m authors k).length = authors.length := by
  induction authors with
  | nil => intro k; rfl
  | cons a rest ih => intro k; simp only [authorTracks, List.length_cons, ih]

theorem authorTracks_getElem (g : music.Generator) (tempo : Nat)
    (m : List (List Nat × List git.Commit)) (authors : List (List Nat)) :
    ∀ (k j : Nat) (a : List Nat), authors[j]? = some a →
      (authorTracks g tempo m authors k)[j]? =
        some (authorTrack g tempo (min (k + j) 15) ((m.lookup a).getD [])) := by
  induction authors with
  | nil => intro k j a h; simp at h
  | cons a0 rest ih =>
    intro k j a h
    cases j with
    | zero =>
      simp only [List.getElem?_cons_zero, Option.some.injEq] at h
      subst h
      simp only [authorTracks, List.getElem?_cons_zero, clamp_eq_min, Nat.add_zero]
    | succ i =>
      simp only [List.getElem?_cons_succ] at h
      have e : k + (i + 1) = k + 1 + i := by omega
      simp only [authorTracks, List.getElem?_cons_succ, ih (k + 1) i a h, e]

theorem status_or_channel {ch : Nat} (hch : ch ≤ 15) :
    (0x90 ||| ch) &&& 0xF0 = 0x90 ∧ (0x80 ||| ch) &&& 0xF0 = 0x80 ∧
      (0x90 ||| ch) &&& 0x0F = ch ∧ (0x80 ||| ch) &&& 0x0F = ch ∧ ch % 256 = ch := by
  have key : ∀ c < 16, (0x90 ||| c) &&& 0xF0 = 0x90 ∧ (0x80 ||| c) &&& 0xF0 = 0x80 ∧
      (0x90 ||| c) &&& 0x0F = c ∧ (0x80 ||| c) &&& 0x0F = c ∧ c % 256 = c := by decide
  exact key ch (by omega)

theorem noteOn_eq (channel note velocity : Nat) :
    NoteOn channel note velocity = [0x90 ||| min channel 15, min note 127, min velocity 127] ∧
      NoteOff channel note velocity =
        [0x80 ||| min channel 15, min note 127, min velocity 127] :=
  ⟨by simp only [NoteOn, clamp_eq_min], by simp only [NoteOff, clamp_eq_min]⟩

theorem rechannelEvent_note {ch : Nat} (hch : ch ≤ 15) (delta p v : Nat) :
    rechannelEvent ch (TrackEvent.mk delta (NoteOn 0 p v)) =
        TrackEvent.mk delta (NoteOn (ch % 256) p v) ∧
      rechannelEvent ch (TrackEvent.mk delta (NoteOff 0 p v)) =
        TrackEvent.mk delta (NoteOff (ch % 256) p v) := by
  have hs := status_or_channel hch
  rw [hs.2.2.2.2, (noteOn_eq 0 p v).1, (noteOn_eq 0 p v).2, (noteOn_eq ch p v).1,
    (noteOn_eq ch p v).2, Nat.min_eq_left hch]
  constructor <;> simp [rechannelEvent]

theorem rechannel_addEvent (ch : Nat) (t : Track) (delta : Nat) (data : List Nat) :
    rechannel ch (t.AddEvent delta data) =
      { events := (rechannel ch t).events ++ [rechannelEvent ch (TrackEvent.mk delta data)] } := by
  simp [rechannel, Track.AddEvent]

/-- The loop of `generatePerAuthorTracks` on a channel `ch ≤ 15` builds what the loop
of `generateSingleTrack` builds, with channel `ch` in place of channel 0. -/
theorem authorTrackLoop_rechannel (g : music.Generator) {ch : Nat} (hch : ch ≤ 15)
    (cs : List git.Commit) :
    ∀ (i ct : Nat) (track : Track),
      music.authorTrackLoop g ch cs i ct (rechannel ch track) =
        rechannel ch (music.singleTrackLoop g cs i ct track) := by
  induction cs with
  | nil => intro i ct track; rfl
  | cons c rest ih =>
    intro i ct track
    rw [music.authorTrackLoop, music.singleTrackLoop, ← ih]
    congr 1
    simp only [Track.AddNoteOn, Track.AddNoteOff, rechannel_addEvent,
      (rechannelEvent_note hch _ _ _).1, (rechannelEvent_note hch _ _ _).2]
    simp [Track.AddEvent]

theorem authorTrack_eq_rechannel (g : music.Generator) (tempo : Nat) {ch : Nat}
    (hch : ch ≤ 15) (cs : List git.Commit) :
    authorTrack g tempo ch cs =
      rechannel ch
        ((music.singleTrackLoop g cs 0 0 (NewTrack.AddTempo 0 tempo)).AddEndOfTrack 0) := by
  have h0 : rechannel ch (NewTrack.AddTempo 0 tempo) = NewTrack.AddTempo 0 tempo := rfl
  have h := authorTrackLoop_rechannel g hch cs 0 0 (NewTrack.AddTempo 0 tempo)
  rw [h0] at h
  rw [authorTrack, h, Track.AddEndOfTrack, Track.AddEndOfTrack, rechannel_addEvent]
  rfl

theorem authorTrackLoop_zero (g : music.Generator) (cs : List git.Commit) :
    ∀ (i ct : Nat) (track : Track),
      music.authorTrackLoop g 0 cs i ct track = music.singleTrackLoop g cs i ct track := by
  induction cs with
  | nil => intro i ct track; rfl
  | cons c rest ih =>
    intro i ct track
    rw [music.authorTrackLoop, music.singleTrackLoop, ih]

theorem authorTracks_mem (g : music.Generator) (tempo : Nat)
    (m : List (List Nat × List git.Commit)) (authors : List (List Nat)) :
    ∀ (k : Nat) (t : Track), t ∈ authorTracks g tempo m authors k →
      ∃ ch cs, ch ≤ 15 ∧ t = authorTrack g tempo ch cs := by
  induction authors with
  | nil => intro k t h; simp [authorTracks] at h
  | cons a rest ih =>
    intro k t h
    rw [authorTracks, List.mem_cons] at h
    rcases h with h | h
    · exact ⟨_, _, by rw [clamp_eq_min]; exact Nat.min_le_right _ _, h⟩
    · exact ih (k + 1) t h

theorem isNoteOn_note {ch : Nat} (hch : ch ≤ 15) (delta p v : Nat) :
    isNoteOn (TrackEvent.mk delta (NoteOn ch p v)) = true ∧
      isNoteOn (TrackEvent.mk delta (NoteOff ch p v)) = false ∧
      isNoteOff (TrackEvent.mk delta (NoteOff ch p v)) = true ∧
      channelOf (TrackEvent.mk delta (NoteOn ch p v)) = ch ∧
      channelOf (TrackEvent.mk delta (NoteOff ch p v)) = ch := by
  have hs := status_or_channel hch
  rw [(noteOn_eq ch p v).1, (noteOn_eq ch p v).2, Nat.min_eq_left hch]
  simp [isNoteOn, isNoteOff, channelOf, hs.1, hs.2.1, hs.2.2.1, hs.2.2.2.1]

theorem noteOnCount_addEvent (t : Track) (delta : Nat) (data : List Nat) :
    noteOnCount (t.AddEvent delta data) =
      noteOnCount t + (if isNoteOn (TrackEvent.mk delta data) = true then 1 else 0) := by
  simp only [noteOnCount, Track.AddEvent, List.filter_append, List.length_append]
  congr 1
  by_cases h : isNoteOn (TrackEvent.mk delta data) = true
  · simp [List.filter, h]
  · simp [List.filter, h]

theorem noteOnCount_authorTrackLoop (g : music.Generator) {ch : Nat} (hch : ch ≤ 15)
    (cs : List git.Commit) :
    ∀ (i ct : Nat) (track : Track),
      noteOnCount (music.authorTrackLoop g ch cs i ct track) = noteOnCount track + cs.length := by
  have hmod : ch % 256 = ch := (status_or_channel hch).2.2.2.2
  induction cs with
  | nil => intro i ct track; rfl
  | cons c rest ih =>
    intro i ct track
    rw [music.authorTrackLoop, ih, hmod]
    simp only [Track.AddNoteOn, Track.AddNoteOff, noteOnCount_addEvent,
      (isNoteOn_note hch _ _ _).1, (isNoteOn_note hch _ _ _).2.1, List.length_cons]
    simp
    omega

theorem noteOnCount_authorTrack (g : music.Generator) (tempo : Nat) {ch : Nat}
    (hch : ch ≤ 15) (cs : List git.Commit) :
    noteOnCount (authorTrack g tempo ch cs) = cs.length := by
  rw [authorTrack, Track.AddEndOfTrack, noteOnCount_addEvent, noteOnCount_authorTrackLoop g hch,
    Track.AddTempo, noteOnCount_addEvent]
  have h1 : isNoteOn (TrackEvent.mk 0 EndOfTrack) = false := by decide
  have h2 : isNoteOn (TrackEvent.mk 0 (SetTempo tempo)) = false := by
    simp only [isNoteOn, SetTempo, List.headD_cons]
    decide
  have h3 : noteOnCount NewTrack = 0 := rfl
  simp [h1, h2, h3]

theorem noteOnCount_authorTracks (g : music.Generator) (tempo : Nat)
    (m : List (List Nat × List git.Commit)) (authors : List (List Nat)) :
    ∀ (k : Nat), ((authorTracks g tempo m authors k).map noteOnCount).sum =
      (authors.map fun a => ((m.lookup a).getD []).length).sum := by
  induction authors with
  | nil => intro k; rfl
  | cons a rest ih =>
    intro k
    have hch : (if k > 15 then 15 else k) ≤ 15 := by
      rw [clamp_eq_min]; exact Nat.min_le_right _ _
    simp only [authorTracks, List.map_cons, List.sum_cons, ih, noteOnCount_authorTrack g tempo hch]

theorem sum_indicator_absent (authors : List (List Nat)) (x : List Nat) (hx : x ∉ authors) :
    (authors.map fun a => if x = a then 1 else 0).sum = 0 := by
  induction authors with
  | nil => rfl
  | cons a rest ih =>
    have h1 : ¬ x = a := fun e => hx (e ▸ List.mem_cons_self _ _)
    have h2 : x ∉ rest := fun e => hx (List.mem_cons_of_mem _ e)
    rw [List.map_cons, List.sum_cons, ih h2, if_neg h1]

theorem sum_indicator (authors : List (List Nat)) (hnodup : authors.Nodup) (x : List Nat)
    (hx : x ∈ authors) :
    (authors.map fun a => if x = a then 1 else 0).sum = 1 := by
  induction authors with
  | nil => simp at hx
  | cons a rest ih =>
    rw [List.nodup_cons] at hnodup
    rw [List.map_cons, List.sum_cons]
    by_cases h : x = a
    · subst h
      rw [if_pos rfl, sum_indicator_absent rest x hnodup.1]
    · rcases List.mem_cons.mp hx with h1 | h1
      · exact absurd h1 h
      · rw [if_neg h, ih hnodup.2 h1]

theorem sum_commitsOf_length (authors : List (List Nat)) (hnodup : authors.Nodup)
    (commits : List git.Commit) (hcover : ∀ c ∈ commits, c.Author ∈ authors) :
    (authors.map fun a => (commitsOf a commits).length).sum = commits.length := by
  induction commits with
  | nil => simp [commitsOf]
  | cons c rest ih =>
    have hstep : ∀ a, (commitsOf a (c :: rest)).length =
        (commitsOf a rest).length + (if c.Author = a then 1 else 0) := by
      intro a
      by_cases h : c.Author = a
      · simp [commitsOf, h]
      · simp [commitsOf, h]
    simp only [hstep]
    rw [List.sum_map_add, ih fun x hx => hcover x (List.mem_cons_of_mem _ hx),
      sum_indicator authors hnodup c.Author (hcover c (List.mem_cons_self _ _)),
      List.length_cons]

theorem authorTrackLoop_append (g : music.Generator) (ch : Nat) (cs : List git.Commit) :
    ∀ (i ct : Nat) (track : Track), ∃ tail,
      (music.authorTrackLoop g ch cs i ct track).events = track.events ++ tail := by
  induction cs with
  | nil => intro i ct track; exact ⟨[], by simp [music.authorTrackLoop]⟩
  | cons c rest ih =>
    intro i ct track
    rw [music.authorTrackLoop]
    obtain ⟨tail, h⟩ := ih (i + 1)
      (((music.calculateRhythm (i : Int) (g.config.Duration % 2 ^ 32).toNat * 3) % 2 ^ 32) / 4)
      ((track.AddNoteOn ct (ch % 256) (music.hashToPitch c.Hash)
        (music.messageToVelocity c.Message)).AddNoteOff
        (music.calculateRhythm (i : Int) (g.config.Duration % 2 ^ 32).toNat) (ch % 256)
        (music.hashToPitch c.Hash) 64)
    rw [h]
    simp only [Track.AddNoteOn, Track.AddNoteOff, Track.AddEvent, List.append_assoc]
    exact ⟨_, rfl⟩

theorem authorTrack_head (g : music.Generator) (tempo ch : Nat) (cs : List git.Commit) :
    (authorTrack g tempo ch cs).events.head? = some (TrackEvent.mk 0 (SetTempo tempo)) := by
  obtain ⟨tail, h⟩ := authorTrackLoop_append g ch cs 0 0 (NewTrack.AddTempo 0 tempo)
  rw [authorTrack, Track.AddEndOfTrack, Track.AddEvent, h]
  rfl

/-- Every property of events that holds for the events of the track given to the loop
and for every note-on and note-off the loop can add holds for all events after it. -/
theorem authorTrackLoop_forall (g : music.Generator) (ch : Nat) (P : TrackEvent → Prop)
    (bound : Nat) (hbound : ∀ i : Nat,
      ((music.calculateRhythm (i : Int) (g.config.Duration % 2 ^ 32).toNat * 3) % 2 ^ 32) / 4
        ≤ bound)
    (hon : ∀ ct p v, ct ≤ bound → P (TrackEvent.mk ct (NoteOn (ch % 256) p v)))
    (hoff : ∀ (i : Nat) p v, P (TrackEvent.mk
      (music.calculateRhythm (i : Int) (g.config.Duration % 2 ^ 32).toNat)
      (NoteOff (ch % 256) p v)))
    (cs : List git.Commit) :
    ∀ (i ct : Nat) (track : Track), ct ≤ bound → (∀ e ∈ track.events, P e) →
      ∀ e ∈ (music.authorTrackLoop g ch cs i ct track).events, P e := by
  induction cs with
  | nil => intro i ct track _ h; exact h
  | cons c rest ih =>
    intro i ct track hct h
    rw [music.authorTrackLoop]
    apply ih (i + 1) _ _ (hbound i)
    intro e he
    simp only [Track.AddNoteOn, Track.AddNoteOff, Track.AddEvent, List.mem_append,
      List.mem_singleton] at he
    rcases he with (he | he) | he
    · exact h e he
    · rw [he]; exact hon _ _ _ hct
    · rw [he]; exact hoff _ _ _

theorem authorTrack_forall (g : music.Generator) (tempo ch : Nat) (P : TrackEvent → Prop)
    (bound : Nat) (hbound : ∀ i : Nat,
      ((music.calculateRhythm (i : Int) (g.config.Duration % 2 ^ 32).toNat * 3) % 2 ^ 32) / 4
        ≤ bound)
    (hon : ∀ ct p v, ct ≤ bound → P (TrackEvent.mk ct (NoteOn (ch % 256) p v)))
    (hoff : ∀ (i : Nat) p v, P (TrackEvent.mk
      (music.calculateRhythm (i : Int) (g.config.Duration % 2 ^ 32).toNat)
      (NoteOff (ch % 256) p v)))
    (htempo : P (TrackEvent.mk 0 (SetTempo tempo))) (hend : P (TrackEvent.mk 0 EndOfTrack))
    (cs : List git.Commit) :
    ∀ e ∈ (authorTrack g tempo ch cs).events, P e := by
  intro e he
  rw [authorTrack, Track.AddEndOfTrack, Track.AddEvent] at he
  simp only [List.mem_append, List.mem_singleton] at he
  rcases he with he | he
  · refine authorTrackLoop_forall g ch P bound hbound hon hoff cs 0 0 _ (Nat.zero_le _) ?_ e he
    intro x hx
    simp only [Track.AddTempo, Track.AddEvent, NewTrack, List.nil_append,
      List.mem_singleton] at hx
    rw [hx]; exact htempo
  · rw [he]; exact hend

theorem rhythm_cursor_lt (g : music.Generator) (i : Nat) :
    ((music.calculateRhythm (i : Int) (g.config.Duration % 2 ^ 32).toNat * 3) % 2 ^ 32) / 4
      ≤ 2 ^ 32 := by
  have h : (music.calculateRhythm (i : Int) (g.config.Duration % 2 ^ 32).toNat * 3) % 2 ^ 32
      < 2 ^ 32 := Nat.mod_lt _ (by decide)
  omega

/-- Every note-on and note-off of a track built on a channel `ch ≤ 15` uses that
channel. -/
theorem authorTrack_channel (g : music.Generator) (tempo : Nat) {ch : Nat} (hch : ch ≤ 15)
    (cs : List git.Commit) :
    ∀ e ∈ (authorTrack g tempo ch cs).events,
      (isNoteOn e = true ∨ isNoteOff e = true) → channelOf e = ch := by
  have hmod : ch % 256 = ch := (status_or_channel hch).2.2.2.2
  refine authorTrack_forall g tempo ch
    (fun e => (isNoteOn e = true ∨ isNoteOff e = true) → channelOf e = ch) (2 ^ 32)
    (rhythm_cursor_lt g) ?_ ?_ ?_ ?_ cs
  · intro ct p v _ _
    rw [hmod]; exact (isNoteOn_note hch ct p v).2.2.2.1
  · intro i p v _
    rw [hmod]; exact (isNoteOn_note hch _ p v).2.2.2.2
  · intro h
    have h1 : isNoteOn (TrackEvent.mk 0 (SetTempo tempo)) = false := by
      simp only [isNoteOn, SetTempo, List.headD_cons]; decide
    have h2 : isNoteOff (TrackEvent.mk 0 (SetTempo tempo)) = false := by
      simp only [isNoteOff, SetTempo, List.headD_cons]; decide
    rw [h1, h2] at h
    simp at h
  · intro h
    have h1 : isNoteOn (TrackEvent.mk 0 EndOfTrack) = false := by decide
    have h2 : isNoteOff (TrackEvent.mk 0 EndOfTrack) = false := by decide
    rw [h1, h2] at h
    simp at h

/-- With a base duration of at most 4800 every delta time of a generated track is at
most 4800. -/
theorem authorTrack_deltas (g : music.Generator) (tempo ch : Nat) {d : Nat}
    (hdur : (g.config.Duration % 2 ^ 32).toNat = d) (hd : d ≤ 4800) (cs : List git.Commit) :
    ∀ e ∈ (authorTrack g tempo ch cs).events, e.DeltaTime ≤ 4800 := by
  have hle : ∀ i : Nat, music.calculateRhythm (i : Int) d ≤ d := fun i =>
    calculateRhythm_le (Int.ofNat_nonneg i) (by omega)
  refine authorTrack_forall g tempo ch (fun e => e.DeltaTime ≤ 4800) 4800 ?_ ?_ ?_
    (Nat.zero_le _) (Nat.zero_le _) cs
  · intro i
    rw [hdur]
    have := hle i
    rw [Nat.mod_eq_of_lt (by omega)]
    omega
  · intro ct p v hct
    exact hct
  · intro i p v
    rw [hdur]
    exact Nat.le_trans (hle i) hd

theorem generateSingleTrack_eq (g : music.Generator) (w : Writer) (cs : List git.Commit)
    (tempo : Nat) :
    music.generateSingleTrack g w cs tempo = (w.AddTrack (authorTrack g tempo 0 cs), none) := by
  rw [music.generateSingleTrack, authorTrack, authorTrackLoop_zero]

theorem track_encode_ok (t : Track) (h : ∀ e ∈ t.events, e.DeltaTime < 2 ^ 28) :
    ∃ chunk, t.Encode = Outcome.ok chunk := by
  unfold Track.Encode
  rw [encodeEvents_eq t.events [] h]
  exact ⟨_, rfl⟩

theorem sortedAuthors_length (commits : List git.Commit) :
    (music.sortedAuthors (music.groupByAuthor commits)).length =
      (commits.map fun c => c.Author).dedup.length := by
  obtain ⟨_, hnodup, hmem⟩ := sortedAuthors_spec commits
  apply List.Perm.length_eq
  rw [List.perm_ext_iff_of_nodup hnodup (List.nodup_dedup _)]
  intro a
  rw [hmem, List.mem_dedup, List.mem_map]

theorem eq_singleton_of_nodup {l : List (List Nat)} {a : List Nat} (hnodup : l.Nodup)
    (hmem : ∀ x, x ∈ l ↔ x = a) : l = [a] := by
  cases l with
  | nil => exact absurd ((hmem a).mpr rfl) (List.not_mem_nil a)
  | cons x rest =>
    have hx : x = a := (hmem x).mp (List.mem_cons_self _ _)
    subst hx
    rw [List.nodup_cons] at hnodup
    cases rest with
    | nil => rfl
    | cons y tail =>
      have hy : y = x := (hmem y).mp (List.mem_cons_of_mem _ (List.mem_cons_self _ _))
      subst hy
      exact absurd (List.mem_cons_self _ _) hnodup.1

/-- What `generatePerAuthorTracks` does to the writer: it appends, for the authors in
sorted order, the track of each author's commits on the channel `min(k, 15)`. -/
theorem generatePerAuthorTracks_eq (g : music.Generator) (w : Writer)
    (commits : List git.Commit) (tempo : Nat) :
    ∃ newTracks,
      music.generatePerAuthorTracks g w commits tempo =
        ({ format := w.format, division := w.division, tracks := w.tracks ++ newTracks },
          none) ∧
      newTracks.length = (music.sortedAuthors (music.groupByAuthor commits)).length ∧
      (∀ t ∈ newTracks, ∃ ch cs, ch ≤ 15 ∧ t = authorTrack g tempo ch cs) ∧
      (newTracks.map noteOnCount).sum = commits.length ∧
      ∀ (k : Nat) (a : List Nat),
        (music.sortedAuthors (music.groupByAuthor commits))[k]? = some a →
        newTracks[k]? = some (authorTrack g tempo (min k 15) (commitsOf a commits)) := by
  obtain ⟨_, hnodup, hmem⟩ := sortedAuthors_spec commits
  have hlookup : ∀ a, ((music.groupByAuthor commits).lookup a).getD [] = commitsOf a commits := by
    intro a
    rw [music.groupByAuthor, groupBy_lookup]
    rfl
  refine ⟨authorTracks g tempo (music.groupByAuthor commits)
    (music.sortedAuthors (music.groupByAuthor commits)) 0, ?_, authorTracks_length _ _ _ _ _,
    authorTracks_mem _ _ _ _ _, ?_, ?_⟩
  · rw [music.generatePerAuthorTracks, authorsLoop_eq]
  · rw [noteOnCount_authorTracks]
    simp only [hlookup]
    exact sum_commitsOf_length _ hnodup commits
      fun c hc => (hmem c.Author).mpr ⟨c, hc, rfl⟩
  · intro k a hk
    rw [authorTracks_getElem _ _ _ _ 0 k a hk, hlookup, Nat.zero_add]

/-- In per-author mode, away from the division by zero, `Generate` yields a writer
with format 1 and one track per distinct author, the `k`-th track being the one of the
`k`-th author in ascending order, on channel `min(k, 15)`, starting with its own tempo
event. -/
theorem generate_per_author (g : music.Generator) (commits : List git.Commit) (tempo : Nat)
    (hmode : g.config.Mode = music.ModePerAuthor) (hne : commits ≠ [])
    (ht : BPMToMicrosecondsPerQuarter g.config.BPM = Outcome.ok tempo) :
    ∃ w, music.Generate g commits = Outcome.ok (some w, none) ∧
      w.format = 1 ∧
      w.tracks.length = (commits.map fun c => c.Author).dedup.length ∧
      List.Sorted (fun a b => a < b) (music.sortedAuthors (music.groupByAuthor commits)) ∧
      (∀ a, a ∈ music.sortedAuthors (music.groupByAuthor commits) ↔
        ∃ c ∈ commits, c.Author = a) ∧
      ∀ (k : Nat) (a : List Nat),
        (music.sortedAuthors (music.groupByAuthor commits))[k]? = some a →
        ∃ t, w.tracks[k]? = some t ∧
          t = authorTrack g tempo (min k 15) (commitsOf a commits) ∧
          t.events.head? = some (TrackEvent.mk 0 (SetTempo tempo)) ∧
          noteOnCount t = (commitsOf a commits).length ∧
          ∀ e ∈ t.events, (isNoteOn e = true ∨ isNoteOff e = true) →
            channelOf e = min k 15 := by
  obtain ⟨hsorted, _, hmem⟩ := sortedAuthors_spec commits
  obtain ⟨newTracks, hgen, hlen, _, _, hidx⟩ := generatePerAuthorTracks_eq g
    (NewWriter (if g.config.Mode = music.ModePerAuthor then 1 else 0)
      (g.config.Ticks % 2 ^ 16).toNat) commits tempo
  have h0 : ¬ g.config.Mode = music.ModeSingleTrack := by rw [hmode]; decide
  refine ⟨Writer.mk 1 (g.config.Ticks % 2 ^ 16).toNat newTracks, ?_, rfl, ?_, hsorted, hmem, ?_⟩
  · rw [generate_of_tempo g hne ht, if_neg h0, if_pos hmode, hgen]
    simp only [NewWriter, hmode, if_true, List.nil_append]
  · show newTracks.length = _
    rw [hlen, sortedAuthors_length]
  · intro k a hk
    have hch : min k 15 ≤ 15 := Nat.min_le_right _ _
    exact ⟨_, hidx k a hk, rfl, authorTrack_head g tempo _ _,
      noteOnCount_authorTrack g tempo hch _, authorTrack_channel g tempo hch _⟩

/-- C21. In per-author mode with `BPM = 2^32` the tempo computation inside `Generate`
divides by zero (the same defect as in `BPMToMicrosecondsPerQuarter`), so no writer is
produced for the commits of Bob and Alice; with `BPM = 140` the same commits give
format 1 and two tracks, first the one of Alice with status bytes `90` and `80`
(channel 0), then the one of Bob with `91` and `81` (channel 1), each starting with its
own tempo event at delta 0. -/
theorem generate_per_author_panics_at_bpm_2_pow_32 :
    music.Generate ⟨⟨4294967296, 480, 120, music.ModePerAuthor⟩⟩ exampleCommits =
        Outcome.divideByZero ∧
      music.Generate ⟨⟨140, 480, 120, music.ModePerAuthor⟩⟩ exampleCommits =
        Outcome.ok (some (Writer.mk 1 480
          [Track.mk [TrackEvent.mk 0 [0xFF, 0x51, 0x03, 0x06, 0x8A, 0x1B],
              TrackEvent.mk 0 [0x90, 63, 41], TrackEvent.mk 120 [0x80, 63, 64],
              TrackEvent.mk 0 [0xFF, 0x2F, 0x00]],
            Track.mk [TrackEvent.mk 0 [0xFF, 0x51, 0x03, 0x06, 0x8A, 0x1B],
              TrackEvent.mk 0 [0x91, 63, 41], TrackEvent.mk 120 [0x81, 63, 64],
              TrackEvent.mk 90 [0x91, 79, 40], TrackEvent.mk 120 [0x81, 79, 64],
              TrackEvent.mk 0 [0xFF, 0x2F, 0x00]]]), none) := by
  constructor <;> decide

theorem authorTrack_rechannel_single (g : music.Generator) (tempo : Nat) {ch : Nat}
    (hch : ch ≤ 15) (cs : List git.Commit) :
    authorTrack g tempo ch cs = rechannel ch (authorTrack g tempo 0 cs) := by
  rw [authorTrack_eq_rechannel g tempo hch cs, authorTrack, authorTrackLoop_zero]

/-- C22. Per-author mode repeats the single-track algorithm per author: the tracks
added are one per author in ascending order, and for every author at sorted position
`k` the `k`-th one is the track single-track generation produces for that author's
commits in their original order, with the same tempo and with channel `min(k, 15)` in
place of channel 0; when all commits share one author the only track is the
single-track one itself; and the note-on events over all the tracks number exactly the
number of commits. -/
theorem per_author_repeats_single_track (g : music.Generator) (w : Writer)
    (commits : List git.Commit) (tempo : Nat) :
    ∃ newTracks,
      music.generatePerAuthorTracks g w commits tempo =
        ({ format := w.format, division := w.division, tracks := w.tracks ++ newTracks },
          none) ∧
      List.Sorted (fun a b => a < b) (music.sortedAuthors (music.groupByAuthor commits)) ∧
      (∀ a, a ∈ music.sortedAuthors (music.groupByAuthor commits) ↔
        ∃ c ∈ commits, c.Author = a) ∧
      newTracks.length = (music.sortedAuthors (music.groupByAuthor commits)).length ∧
      (∀ (k : Nat) (a : List Nat),
        (music.sortedAuthors (music.groupByAuthor commits))[k]? = some a →
        ∃ single,
          music.generateSingleTrack g w (commitsOf a commits) tempo =
            (w.AddTrack single, none) ∧
          newTracks[k]? = some (rechannel (min k 15) single)) ∧
      (∀ a, commits ≠ [] → (∀ c ∈ commits, c.Author = a) →
        ∃ single,
          music.generateSingleTrack g w commits tempo = (w.AddTrack single, none) ∧
          newTracks = [single]) ∧
      (newTracks.map noteOnCount).sum = commits.length := by
  obtain ⟨hsorted, hnodup, hmem⟩ := sortedAuthors_spec commits
  obtain ⟨newTracks, hgen, hlen, _, hsum, hidx⟩ := generatePerAuthorTracks_eq g w commits tempo
  refine ⟨newTracks, hgen, hsorted, hmem, hlen, ?_, ?_, hsum⟩
  · intro k a hk
    refine ⟨authorTrack g tempo 0 (commitsOf a commits), generateSingleTrack_eq g w _ tempo, ?_⟩
    rw [hidx k a hk, authorTrack_rechannel_single g tempo (Nat.min_le_right k 15)]
  · intro a hne hall
    refine ⟨authorTrack g tempo 0 commits, generateSingleTrack_eq g w _ tempo, ?_⟩
    have hauthors : music.sortedAuthors (music.groupByAuthor commits) = [a] := by
      apply eq_singleton_of_nodup hnodup
      intro x
      rw [hmem]
      constructor
      · rintro ⟨c, hc, hx⟩
        rw [← hx, hall c hc]
      · intro hx
        obtain ⟨c, hc⟩ := List.exists_mem_of_ne_nil commits hne
        exact ⟨c, hc, by rw [hx, hall c hc]⟩
    have hfilter : commitsOf a commits = commits := by
      rw [commitsOf, List.filter_eq_self]
      intro c hc
      simp [hall c hc]
    have h0 := hidx 0 a (by rw [hauthors]; rfl)
    rw [hfilter] at h0
    rw [hauthors] at hlen
    match newTracks, hlen, h0 with
    | [t], _, h0 =>
      simp only [List.getElem?_cons_zero, Option.some.injEq] at h0
      rw [h0]
      rfl

theorem per_author_repeats_single_track_witness :
    (∃ single,
        music.generateSingleTrack ⟨⟨140, 480, 120, music.ModePerAuthor⟩⟩ (NewWriter 1 480)
          (commitsOf [66, 111, 98] exampleCommits) 428571 =
          ((NewWriter 1 480).AddTrack single, none) ∧
        rechannel (min 1 15) single =
          Track.mk [TrackEvent.mk 0 [0xFF, 0x51, 0x03, 0x06, 0x8A, 0x1B],
            TrackEvent.mk 0 [0x91, 63, 41], TrackEvent.mk 120 [0x81, 63, 64],
            TrackEvent.mk 90 [0x91, 79, 40], TrackEvent.mk 120 [0x81, 79, 64],
            TrackEvent.mk 0 [0xFF, 0x2F, 0x00]]) ∧
      (∃ single,
        music.generateSingleTrack ⟨⟨140, 480, 120, music.ModePerAuthor⟩⟩ (NewWriter 1 480)
          (exampleCommits.take 1) 428571 = ((NewWriter 1 480).AddTrack single, none) ∧
        music.generatePerAuthorTracks ⟨⟨140, 480, 120, music.ModePerAuthor⟩⟩ (NewWriter 1 480)
          (exampleCommits.take 1) 428571 = ((NewWriter 1 480).AddTrack single, none)) := by
  constructor
  · obtain ⟨newTracks, hgen, _, _, _, hidx, _, _⟩ := per_author_repeats_single_track
      ⟨⟨140, 480, 120, music.ModePerAuthor⟩⟩ (NewWriter 1 480) exampleCommits 428571
    obtain ⟨single, hsingle, hk⟩ := hidx 1 [66, 111, 98] (by decide)
    refine ⟨single, hsingle, ?_⟩
    have hnew : newTracks =
        [Track.mk [TrackEvent.mk 0 [0xFF, 0x51, 0x03, 0x06, 0x8A, 0x1B],
            TrackEvent.mk 0 [0x90, 63, 41], TrackEvent.mk 120 [0x80, 63, 64],
            TrackEvent.mk 0 [0xFF, 0x2F, 0x00]],
          Track.mk [TrackEvent.mk 0 [0xFF, 0x51, 0x03, 0x06, 0x8A, 0x1B],
            TrackEvent.mk 0 [0x91, 63, 41], TrackEvent.mk 120 [0x81, 63, 64],
            TrackEvent.mk 90 [0x91, 79, 40], TrackEvent.mk 120 [0x81, 79, 64],
            TrackEvent.mk 0 [0xFF, 0x2F, 0x00]]] := by
      have hdec : music.generatePerAuthorTracks ⟨⟨140, 480, 120, music.ModePerAuthor⟩⟩
          (NewWriter 1 480) exampleCommits 428571 =
          (Writer.mk 1 480
            [Track.mk [TrackEvent.mk 0 [0xFF, 0x51, 0x03, 0x06, 0x8A, 0x1B],
                TrackEvent.mk 0 [0x90, 63, 41], TrackEvent.mk 120 [0x80, 63, 64],
                TrackEvent.mk 0 [0xFF, 0x2F, 0x00]],
              Track.mk [TrackEvent.mk 0 [0xFF, 0x51, 0x03, 0x06, 0x8A, 0x1B],
                TrackEvent.mk 0 [0x91, 63, 41], TrackEvent.mk 120 [0x81, 63, 64],
                TrackEvent.mk 90 [0x91, 79, 40], TrackEvent.mk 120 [0x81, 79, 64],
                TrackEvent.mk 0 [0xFF, 0x2F, 0x00]]], none) := by decide
      rw [hgen] at hdec
      simpa [NewWriter] using hdec
    rw [hnew] at hk
    simpa using hk.symm
  · obtain ⟨newTracks, hgen, _, _, _, _, hone, _⟩ := per_author_repeats_single_track
      ⟨⟨140, 480, 120, music.ModePerAuthor⟩⟩ (NewWriter 1 480) (exampleCommits.take 1) 428571
    obtain ⟨single, hsingle, hnew⟩ := hone [66, 111, 98] (by decide) (by decide)
    refine ⟨single, hsingle, ?_⟩
    rw [hgen, hnew]
    rfl

theorem encodeVarLen_at_most_four {v : Nat} (hv : v < 2 ^ 28) :
    ∃ bytes, EncodeVarLen v = Outcome.ok bytes ∧ bytes.length ≤ 4 := by
  obtain ⟨bytes, henc, _, hlen, _⟩ := decode_encode_append v hv []
  exact ⟨bytes, henc, hlen⟩

/-- C23. Delta times are always representable: for every configuration accepted by
`Config.Validate`, either mode and every non-empty commit sequence, `Generate` yields a
writer, every event of every track of it has a delta time of at most 4800, below
`2^28`, whose variable-length encoding succeeds with at most 4 bytes, and `Track.Encode`
of every generated track returns its chunk. -/
theorem generated_deltas_representable (cfg : config.Config) (commits : List git.Commit)
    (hvalid : cfg.Validate = none)
    (hmode : cfg.Mode = music.ModeSingleTrack ∨ cfg.Mode = music.ModePerAuthor)
    (hne : commits ≠ []) :
    ∃ w, music.Generate (music.NewGenerator (genCfg cfg)) commits = Outcome.ok (some w, none) ∧
      ∀ t ∈ w.tracks,
        (∀ e ∈ t.events, e.DeltaTime ≤ 4800 ∧ e.DeltaTime < 2 ^ 28 ∧
          ∃ bytes, EncodeVarLen e.DeltaTime = Outcome.ok bytes ∧ bytes.length ≤ 4) ∧
        ∃ chunk, t.Encode = Outcome.ok chunk := by
  obtain ⟨_, _, hb1, hb2, _, _, hd1, hd2, _⟩ := (validate_eq_none_iff cfg).mp hvalid
  have ht : BPMToMicrosecondsPerQuarter (music.NewGenerator (genCfg cfg)).config.BPM =
      Outcome.ok (60000000 / cfg.BPM.toNat) :=
    bpm_tempo_of_pos (by show 0 < cfg.BPM; omega) (by show cfg.BPM < 2 ^ 32; omega)
  have hdur : ((music.NewGenerator (genCfg cfg)).config.Duration % 2 ^ 32).toNat =
      cfg.Duration.toNat := by
    show (cfg.Duration % 2 ^ 32).toNat = cfg.Duration.toNat
    rw [Int.emod_eq_of_lt (by omega) (by omega)]
  have hd : cfg.Duration.toNat ≤ 4800 := by omega
  have htracks : ∃ w, music.Generate (music.NewGenerator (genCfg cfg)) commits =
      Outcome.ok (some w, none) ∧
      ∀ t ∈ w.tracks, ∃ ch cs, t = authorTrack (music.NewGenerator (genCfg cfg))
        (60000000 / cfg.BPM.toNat) ch cs := by
    rw [generate_of_tempo _ hne ht]
    rcases hmode with h0 | h1
    · have hm : (music.NewGenerator (genCfg cfg)).config.Mode = music.ModeSingleTrack := h0
      rw [if_pos hm, generateSingleTrack_eq]
      refine ⟨_, rfl, fun t htmem => ?_⟩
      simp only [Writer.AddTrack, NewWriter, List.nil_append, List.mem_singleton] at htmem
      exact ⟨0, commits, htmem⟩
    · have hm : (music.NewGenerator (genCfg cfg)).config.Mode = music.ModePerAuthor := h1
      have hm0 : ¬ (music.NewGenerator (genCfg cfg)).config.Mode = music.ModeSingleTrack := by
        rw [hm]; decide
      obtain ⟨newTracks, hgen, _, hall, _, _⟩ := generatePerAuthorTracks_eq
        (music.NewGenerator (genCfg cfg))
        (NewWriter (if (music.NewGenerator (genCfg cfg)).config.Mode = music.ModePerAuthor
          then 1 else 0) ((music.NewGenerator (genCfg cfg)).config.Ticks % 2 ^ 16).toNat)
        commits (60000000 / cfg.BPM.toNat)
      rw [if_neg hm0, if_pos hm, hgen]
      refine ⟨_, rfl, fun t htmem => ?_⟩
      simp only [NewWriter, List.nil_append] at htmem
      obtain ⟨ch, cs, _, heq⟩ := hall t htmem
      exact ⟨ch, cs, heq⟩
  obtain ⟨w, hgen, hall⟩ := htracks
  refine ⟨w, hgen, fun t htmem => ?_⟩
  obtain ⟨ch, cs, heq⟩ := hall t htmem
  have hdeltas : ∀ e ∈ t.events, e.DeltaTime ≤ 4800 := by
    rw [heq]
    exact authorTrack_deltas _ _ ch hdur hd cs
  refine ⟨fun e he => ?_, track_encode_ok t fun e he => ?_⟩
  · have h := hdeltas e he
    exact ⟨h, by omega, encodeVarLen_at_most_four (by omega)⟩
  · have h := hdeltas e he
    omega

theorem generated_deltas_representable_witness :
    ∃ w, music.Generate (music.NewGenerator (genCfg
        { config.NewConfig with Mode := music.ModePerAuthor })) exampleCommits =
        Outcome.ok (some w, none) ∧
      ∀ t ∈ w.tracks,
        (∀ e ∈ t.events, e.DeltaTime ≤ 4800 ∧ e.DeltaTime < 2 ^ 28 ∧
          ∃ bytes, EncodeVarLen e.DeltaTime = Outcome.ok bytes ∧ bytes.length ≤ 4) ∧
        ∃ chunk, t.Encode = Outcome.ok chunk :=
  generated_deltas_representable { config.NewConfig with Mode := music.ModePerAuthor }
    exampleCommits (by decide) (Or.inr rfl) (by decide)

end Git2Midi
